import Mathlib

/-
Verification of the partition/assignment engine of the GerryChain fork
(src/gerrychain/partition/partition.py) by shallow embedding in Lean.

Modelling conventions:
* Node and part identifiers are natural numbers (the source treats them as
  opaque hashable values).
* Python dicts are association lists (`List (key × value)`) with unique keys
  and insertion order preserved; `alookup` is dict lookup (first match).
* Python frozensets of nodes are `Finset Node`.
* Exceptions are `Except CError`.
* The functions `flows_from_changes` and `compute_edge_flows` are imported
  by the source from `gerrychain.updaters`, which is not part of the given
  sources; they are modelled from the spec (section 4.2), as marked below.
-/

/-- Equality of options is decidable. This instance is stated so that it
reduces well inside the kernel (the derived instance can get stuck when the
element type is `Finset`), letting concrete claims be settled by `decide`. -/
instance (priority := 2000) decEqOpt {α : Type _} [DecidableEq α] :
    DecidableEq (Option α) := fun a b =>
  match a, b with
  | none, none => .isTrue rfl
  | some x, some y =>
    match inferInstanceAs (Decidable (x = y)) with
    | .isTrue h => .isTrue (h ▸ rfl)
    | .isFalse h => .isFalse (fun c => h (Option.some.inj c))
  | none, some _ => .isFalse (fun c => Option.noConfusion c)
  | some _, none => .isFalse (fun c => Option.noConfusion c)

/-- Equality of `Except` values is decidable, again in a kernel-friendly
formulation. -/
instance (priority := 2000) decEqExc {ε α : Type _} [DecidableEq ε] [DecidableEq α] :
    DecidableEq (Except ε α) := fun a b =>
  match a, b with
  | .error x, .error y =>
    match inferInstanceAs (Decidable (x = y)) with
    | .isTrue h => .isTrue (h ▸ rfl)
    | .isFalse h => .isFalse (fun c => h (Except.error.inj c))
  | .ok x, .ok y =>
    match inferInstanceAs (Decidable (x = y)) with
    | .isTrue h => .isTrue (h ▸ rfl)
    | .isFalse h => .isFalse (fun c => h (Except.ok.inj c))
  | .error _, .ok _ => .isFalse (fun c => Except.noConfusion c)
  | .ok _, .error _ => .isFalse (fun c => Except.noConfusion c)

abbrev Node := Nat
abbrev PartId := Nat

/-- Dict lookup on an association list: the value of the first entry with the
given key (Python `d[k]`, with `none` standing for `KeyError`). -/
def alookup {α β : Type _} [DecidableEq α] : List (α × β) → α → Option β
  | [], _ => none
  | e :: t, k => if e.1 = k then some e.2 else alookup t k

/-- Dict write `d[k] = v` for a key already present: replaces the value of the
first entry with key `k`, leaving the list unchanged if the key is absent. -/
def updateEntry {α β : Type _} [DecidableEq α] : List (α × β) → α → β → List (α × β)
  | [], _, _ => []
  | e :: t, k, v => if e.1 = k then (k, v) :: t else e :: updateEntry t k v

/-- One step of `level_sets`: add `src` to the set stored under key `tgt`,
appending a fresh singleton entry when the key is absent (a
`collections.defaultdict(set)` write). -/
def insertLS (acc : List (PartId × Finset Node)) (src : Node) (tgt : PartId) :
    List (PartId × Finset Node) :=
  match acc with
  | [] => [(tgt, {src})]
  | e :: t => if e.1 = tgt then (e.1, insert src e.2) :: t else e :: insertLS t src tgt

def lsAux (acc : List (PartId × Finset Node)) : List (Node × PartId) → List (PartId × Finset Node)
  | [] => acc
  | e :: t => lsAux (insertLS acc e.1 e.2) t

/-- Source `level_sets`: group a node-to-part dict by part, producing the dict
from each part to the set of nodes mapped to it. -/
def level_sets (m : List (Node × PartId)) : List (PartId × Finset Node) :=
  lsAux [] m

/-- Source `Assignment`: owns the dict `parts` from part identifier to the
frozenset of nodes currently in that part. -/
structure Assignment where
  parts : List (PartId × Finset Node)

instance : DecidableEq Assignment := fun a b =>
  match a, b with
  | ⟨x⟩, ⟨y⟩ =>
    match inferInstanceAs (Decidable (x = y)) with
    | .isTrue h => .isTrue (h ▸ rfl)
    | .isFalse h => .isFalse (fun c => h (congrArg Assignment.parts c))

/-- Source `Assignment.from_dict`: group the full node-to-part dict by part
(the per-part sets are already modelled as `Finset`, so the `frozenset`
conversion is the identity here). -/
def Assignment.from_dict (m : List (Node × PartId)) : Assignment :=
  ⟨level_sets m⟩

/-- Source `Assignment.__getitem__`: scan the parts dict in order and return
the first part whose set contains the node; `none` is the raised `KeyError`. -/
def Assignment.getitem (a : Assignment) (n : Node) : Option PartId :=
  (a.parts.find? (fun e => decide (n ∈ e.2))).map Prod.fst

/-- Source `Assignment.copy` at the value level: the copy holds the same parts
dict (the heap-level sharing of the frozensets is modelled separately below). -/
def Assignment.copy (a : Assignment) : Assignment :=
  ⟨a.parts⟩

/-- Enumerate a finite set of nodes as the ascending list of its elements
(the elements are bounded by the set's supremum). -/
def fsList (s : Finset Node) : List Node :=
  (List.range (s.sup id + 1)).filter (fun n => decide (n ∈ s))

/-- Source `Assignment.items`: enumerate (node, part) pairs, parts in dict
order, nodes of each part enumerated in ascending order (the Python set
iteration order is unspecified; only membership matters). -/
def Assignment.items (a : Assignment) : List (Node × PartId) :=
  (a.parts.map (fun e => (fsList e.2).map (fun n => (n, e.1)))).flatten

/-- FlowRec record of one part: the nodes newly entering the part and the nodes
leaving it. -/
structure FlowRec where
  inn : Finset Node
  out : Finset Node

instance : DecidableEq FlowRec := fun a b =>
  match a, b with
  | ⟨i, o⟩, ⟨j, q⟩ =>
    match inferInstanceAs (Decidable (i = j)), inferInstanceAs (Decidable (o = q)) with
    | .isTrue h1, .isTrue h2 => .isTrue (h1 ▸ h2 ▸ rfl)
    | .isFalse h1, _ => .isFalse (fun c => h1 (congrArg FlowRec.inn c))
    | _, .isFalse h2 => .isFalse (fun c => h2 (congrArg FlowRec.out c))

/-- Error kinds of the engine, as exceptions raised by the source: `TypeError`
from `get_assignment`, `KeyError` on a node (`Assignment.__getitem__`) or on a
part (`Assignment.update` reading a missing part key), `KeyError` on an
unregistered updater name, and an updater function itself raising. -/
inductive CError where
  | typeError
  | nodeNotFound (n : Node)
  | keyError (p : PartId)
  | unknownUpdater (k : String)
  | updaterError (k : String)

/-- An injective numeric/textual code of each error, giving a
kernel-friendly equality decision. -/
def CError.code : CError → Nat × Nat × String
  | .typeError => (0, 0, "")
  | .nodeNotFound n => (1, n, "")
  | .keyError p => (2, p, "")
  | .unknownUpdater k => (3, 0, k)
  | .updaterError k => (4, 0, k)

theorem CError.code_inj : ∀ {a b : CError}, a.code = b.code → a = b := by
  intro a b h
  cases a <;> cases b <;> simp [CError.code] at h <;> simp [h]

instance : DecidableEq CError := fun a b =>
  match inferInstanceAs (Decidable (a.code = b.code)) with
  | .isTrue h => .isTrue (CError.code_inj h)
  | .isFalse h => .isFalse (fun c => h (congrArg CError.code c))

/-- Modelled from the spec: the changed nodes of a delta. `flows_from_changes`
lives in `gerrychain.updaters`, outside the given sources; per spec section
4.2 a node of the delta is a change exactly when its new part differs from its
current part, and nodes mapped to their current part are excluded. Each
element is (node, old part, new part). -/
def changedTriples (a : Assignment) (D : List (Node × PartId)) : List (Node × PartId × PartId) :=
  D.filterMap (fun e =>
    match a.getitem e.1 with
    | some p => if p = e.2 then none else some (e.1, p, e.2)
    | none => none)

/-- Modelled from the spec: `flows_from_changes(old_assignment, delta)` from
`gerrychain.updaters` (not among the given sources). Per spec section 4.2: for
every node of the delta whose new part differs from its current one, the old
part records the node in its "out" set and the new part in its "in" set;
parts with no change are absent; looking up a node absent from every part
fails (`NodeNotFound`). -/
def touchedParts (a : Assignment) (D : List (Node × PartId)) : List PartId :=
  ((changedTriples a D).map (fun c => c.2.1) ++ (changedTriples a D).map (fun c => c.2.2)).dedup

/-- Modelled from the spec: the flow record of one part, from the changed
nodes of the delta: the nodes entering the part (their new part is `p`) and
the nodes leaving it (their old part is `p`). -/
def flowAt (a : Assignment) (D : List (Node × PartId)) (p : PartId) : FlowRec :=
  ⟨((changedTriples a D).filterMap (fun c => if c.2.2 = p then some c.1 else none)).toFinset,
   ((changedTriples a D).filterMap (fun c => if c.2.1 = p then some c.1 else none)).toFinset⟩

def flows_from_changes (a : Assignment) (D : List (Node × PartId)) :
    Except CError (List (PartId × FlowRec)) :=
  match D.find? (fun e => (a.getitem e.1).isNone) with
  | some e => .error (.nodeNotFound e.1)
  | none => .ok ((touchedParts a D).map (fun p => (p, flowAt a D p)))

/-- Source `Assignment.update`, the flow-application loop: for each part of
the flows dict, replace that part's set by `(old - flow.out) ∪ flow.in`.
Reading `self.parts[part]` for an absent part key raises `KeyError` before
anything is written. -/
def applyFlows : List (PartId × Finset Node) → List (PartId × FlowRec) →
    Except CError (List (PartId × Finset Node))
  | parts, [] => .ok parts
  | parts, (p, fl) :: rest =>
    match alookup parts p with
    | none => .error (.keyError p)
    | some s => applyFlows (updateEntry parts p ((s \ fl.out) ∪ fl.inn)) rest

/-- Source `Assignment.update`: derive the flows of the given mapping against
this assignment, then apply them part by part. -/
def Assignment.update (a : Assignment) (D : List (Node × PartId)) : Except CError Assignment :=
  match flows_from_changes a D with
  | .error e => .error e
  | .ok F =>
    match applyFlows a.parts F with
    | .error e => .error e
    | .ok ps => .ok ⟨ps⟩

/-- Graph collaborator (spec section 6; `gerrychain.graph` is not among the
given sources): an iterable node set, an iterable edge set, and per-node
attribute lookup returning, for an attribute key, the node-to-part dict used
to build an initial assignment. -/
structure Graph where
  nodes : Finset Node
  edges : List (Node × Node)
  nodeAttr : String → List (Node × PartId)

/-- The `parts` attribute of a Partition. The source stores a dict from part
to node set during root construction (`self.parts = level_sets(...)`), but
after running the updaters replaces it by the tuple of part keys
(`self.parts = tuple(self.parts.keys())`), and a child inherits its parent's
value unchanged (`self.parts = parent.parts`). Both shapes therefore occur. -/
inductive PartsField where
  | dict (p : List (PartId × Finset Node))
  | labels (l : List PartId)

instance : DecidableEq PartsField := fun a b =>
  match a, b with
  | .dict x, .dict y =>
    match inferInstanceAs (Decidable (x = y)) with
    | .isTrue h => .isTrue (h ▸ rfl)
    | .isFalse h => .isFalse (fun c => h (by cases c; rfl))
  | .labels x, .labels y =>
    match inferInstanceAs (Decidable (x = y)) with
    | .isTrue h => .isTrue (h ▸ rfl)
    | .isFalse h => .isFalse (fun c => h (by cases c; rfl))
  | .dict _, .labels _ => .isFalse (fun c => PartsField.noConfusion c)
  | .labels _, .dict _ => .isFalse (fun c => PartsField.noConfusion c)

/-- The non-function data of a Partition instance: the graph (borrowed), the
owned assignment, the `parts` attribute, and the flips/flows/edge flows that
produced the instance from its parent (`none` at a root). The parent back
reference is not itself part of the model; each claim that needs the parent
is stated with the parent partition explicit. -/
structure PData where
  graphNodes : Finset Node
  graphEdges : List (Node × Node)
  assignment : Assignment
  partsF : PartsField
  flips : Option (List (Node × PartId))
  flows : Option (List (PartId × FlowRec))
  edge_flows : Option (List (Node × Node))

/-- Source `Partition`: the data, the updater registry (name to function; an
updater returning `none` models the function raising), the updater cache, and
`log`, a ghost field recording the updater names in the order their functions
were invoked during construction (instrumentation for the invocation-count
claims; it does not influence any computation). -/
structure Partition (V : Type) where
  data : PData
  updaters : List (String × (PData → Option V))
  cache : List (String × V)
  log : List String

/-- Argument shapes accepted by the source `get_assignment`: a string naming
a node attribute, a dict, an `Assignment` object, or anything else
(`invalid` covers `None` and every other type). -/
inductive AssignmentArg where
  | attr (key : String)
  | dict (m : List (Node × PartId))
  | assign (a : Assignment)
  | invalid

/-- Source `get_assignment`: dispatch on the argument type, raising
`TypeError` when the argument is neither a string, a dict nor an Assignment. -/
def get_assignment (arg : AssignmentArg) (g : Graph) : Except CError Assignment :=
  match arg with
  | .attr k => .ok (Assignment.from_dict (g.nodeAttr k))
  | .dict m => .ok (Assignment.from_dict m)
  | .assign a => .ok a
  | .invalid => .error .typeError

/-- Source `Partition._update`: starting from an empty cache, evaluate each
registered updater whose name is not yet cached, storing its result. Returns
the final cache together with the invocation log; an updater raising aborts
construction with the error. -/
def runUpdaters (d : PData) : List (String × (PData → Option V)) →
    List (String × V) → List String → Except CError (List (String × V) × List String)
  | [], cache, lg => .ok (cache, lg)
  | (k, f) :: rest, cache, lg =>
    if (alookup cache k).isSome then runUpdaters d rest cache lg
    else
      match f d with
      | none => .error (.updaterError k)
      | some v => runUpdaters d rest (cache ++ [(k, v)]) (lg ++ [k])

/-- Modelled from the spec: `compute_edge_flows` from `gerrychain.updaters`
(not among the given sources). Per spec section 4.2 it computes, among the
edges incident to a flipped node, those whose cross-part status changed
between the parent's and the child's assignment. -/
def compute_edge_flows (old fresh : Assignment) (flips : List (Node × PartId))
    (edges : List (Node × Node)) : List (Node × Node) :=
  edges.filter (fun e =>
    (decide (e.1 ∈ flips.map Prod.fst) || decide (e.2 ∈ flips.map Prod.fst)) &&
    !(decide (old.getitem e.1 = old.getitem e.2) == decide (fresh.getitem e.1 = fresh.getitem e.2)))

/-- Source root construction (`Partition.__init__` without a parent,
`_first_time` followed by `_update`): build the assignment via
`get_assignment`, set `parts = level_sets(assignment)` (iterating the
assignment's items), run every registered updater against that state, and
finally replace `parts` by the tuple of its keys. `default_updaters` is the
empty dict, so the stored registry is the supplied one. -/
def mkRoot (g : Graph) (arg : AssignmentArg)
    (us : List (String × (PData → Option V))) : Except CError (Partition V) :=
  match get_assignment arg g with
  | .error e => .error e
  | .ok a =>
    let pdict := level_sets a.items
    let d0 : PData := ⟨g.nodes, g.edges, a, .dict pdict, none, none, none⟩
    match runUpdaters d0 us [] [] with
    | .error e => .error e
    | .ok (cache, lg) =>
      .ok ⟨{ d0 with partsF := .labels (pdict.map Prod.fst) }, us, cache, lg⟩

/-- Source `Partition.merge` / child construction (`_from_parent` followed by
`_update`): copy the parent's assignment and update it with the flips, keep
the parent's graph, `parts` attribute and updater registry, recompute the
flows against the parent's assignment, derive the edge flows, then run every
registered updater against the child. -/
def Partition.merge (P : Partition V) (flips : List (Node × PartId)) :
    Except CError (Partition V) :=
  match (P.data.assignment.copy).update flips with
  | .error e => .error e
  | .ok a2 =>
    match flows_from_changes P.data.assignment flips with
    | .error e => .error e
    | .ok F =>
      let d : PData :=
        { P.data with
          assignment := a2, flips := some flips, flows := some F,
          edge_flows := some (compute_edge_flows P.data.assignment a2 flips P.data.graphEdges) }
      match runUpdaters d P.updaters [] [] with
      | .error e => .error e
      | .ok (cache, lg) => .ok ⟨d, P.updaters, cache, lg⟩

/-- Source `Partition.crosses_parts`: the edge's endpoints resolve to
different parts; `none` models the `KeyError` when an endpoint is in no part. -/
def Partition.crosses_parts (P : Partition V) (e : Node × Node) : Option Bool :=
  match P.data.assignment.getitem e.1, P.data.assignment.getitem e.2 with
  | some p, some q => some (decide (p ≠ q))
  | _, _ => none

/-- Source `Partition.__getitem__`: return the cached value when present;
otherwise invoke the registered updater (recording the re-invocation in the
returned flag) or raise for an unregistered name. -/
def Partition.getItem (P : Partition V) (k : String) : Except CError (V × Bool) :=
  match alookup P.cache k with
  | some v => .ok (v, false)
  | none =>
    match alookup P.updaters k with
    | some f =>
      match f P.data with
      | some v => .ok (v, true)
      | none => .error (.updaterError k)
    | none => .error (.unknownUpdater k)

/-- A sequence of merge steps from a partition, each with its delta dict. -/
def mergeChain (P : Partition V) : List (List (Node × PartId)) → Except CError (Partition V)
  | [] => .ok P
  | d :: ds =>
    match P.merge d with
    | .error e => .error e
    | .ok Q => mergeChain Q ds

/-- A partition is constructed when it is the successful result of root
construction or of a merge. -/
def Constructed (P : Partition V) : Prop :=
  (∃ g arg us, mkRoot g arg us = .ok P) ∨ (∃ Q d, Partition.merge Q d = .ok P)

/-- Heap model of the frozensets, for the mutation claims: a store of set
objects addressed by index. The source's `Assignment.copy` shares the
frozensets with the original (only the dict is copied), and `update` rebinds
dict entries to newly created frozensets; here creating a frozenset is
appending a cell to the store, and no store cell is ever overwritten exactly
when the code never mutates an existing set object. -/
abbrev Store := List (Finset Node)

/-- Heap-level assignment: the parts dict maps each part to the store index of
its frozenset. -/
structure HAssignment where
  partsH : List (PartId × Nat)

instance : DecidableEq HAssignment := fun a b =>
  match a, b with
  | ⟨x⟩, ⟨y⟩ =>
    match inferInstanceAs (Decidable (x = y)) with
    | .isTrue h => .isTrue (h ▸ rfl)
    | .isFalse h => .isFalse (fun c => h (congrArg HAssignment.partsH c))

/-- Read every part's set out of the store (dangling references read as the
empty set; the theorems assume references are valid). -/
def derefParts (st : Store) (ps : List (PartId × Nat)) : List (PartId × Finset Node) :=
  ps.map (fun e => (e.1, st.getD e.2 ∅))

/-- Heap-level `Assignment.copy`: the copy is a fresh dict holding the same
set references (the source comment: the copy does not duplicate the
frozensets). -/
def HAssignment.copy (a : HAssignment) : HAssignment :=
  ⟨a.partsH⟩

/-- Heap-level node lookup, reading the part sets through the store. -/
def hgetitem (st : Store) (a : HAssignment) (n : Node) : Option PartId :=
  ((derefParts st a.partsH).find? (fun e => decide (n ∈ e.2))).map Prod.fst

/-- Heap-level flow application (the loop of `Assignment.update`): for each
part of the flows dict, read its current frozenset through the store, create
the new frozenset `(old - out) ∪ in` as a fresh store cell, and rebind the
dict entry to it. Existing cells are never written. -/
def happly (st : Store) (ps : List (PartId × Nat)) :
    List (PartId × FlowRec) → Except CError (Store × List (PartId × Nat))
  | [] => .ok (st, ps)
  | (p, fl) :: rest =>
    match alookup ps p with
    | none => .error (.keyError p)
    | some r =>
      happly (st ++ [((st.getD r ∅) \ fl.out) ∪ fl.inn])
        (updateEntry ps p st.length) rest

/-- Heap-level `Assignment.update`: derive the flows reading through the
store, then apply them. -/
def HAssignment.update (st : Store) (a : HAssignment) (D : List (Node × PartId)) :
    Except CError (Store × HAssignment) :=
  match flows_from_changes ⟨derefParts st a.partsH⟩ D with
  | .error e => .error e
  | .ok F =>
    match happly st a.partsH F with
    | .error e => .error e
    | .ok (st2, ps2) => .ok (st2, ⟨ps2⟩)

/-- Heap-level child assignment construction (`_from_parent` lines 102-103):
copy the parent's assignment, then update the copy with the flips. The other
steps of `_from_parent` do not touch the assignment store. -/
def hmerge (st : Store) (parent : HAssignment) (D : List (Node × PartId)) :
    Except CError (Store × HAssignment) :=
  HAssignment.update st parent.copy D

/-- Value type used by the concrete scenarios: a dict from part to node count
(the result of the `size` updater). -/
abbrev SV := List (PartId × Nat)

/-- Scenario graph of spec section 8: nodes 1..4, path edges; part A is 0 and
part B is 1. No node attributes are used. -/
def scGraph : Graph :=
  ⟨{1, 2, 3, 4}, [(1, 2), (2, 3), (3, 4)], fun _ => []⟩

/-- Scenario initial assignment dict: 1 and 2 in part A (0), 3 and 4 in part
B (1). -/
def scMap : List (Node × PartId) := [(1, 0), (2, 0), (3, 1), (4, 1)]

/-- Scenario root partition with no updaters. -/
def scRootE : Except CError (Partition SV) :=
  mkRoot scGraph (.dict scMap) []

/-- Scenario child partition: the root merged with the delta sending node 2
to part B. -/
def scChildE : Except CError (Partition SV) :=
  match scRootE with
  | .error e => .error e
  | .ok P => P.merge [(2, 1)]

/-- The spec's `size` updater read literally: from the partition's `parts`
attribute, the dict from each part label to the number of nodes in that part.
On the tuple-of-labels shape there are no node sets to count and the Python
comprehension over `p.parts` raises (`none`). -/
def sizeUpd : PData → Option SV := fun d =>
  match d.partsF with
  | .dict ps => some (ps.map (fun e => (e.1, e.2.card)))
  | .labels _ => none

/-- The `size` updater reading the per-part node sets from
`partition.assignment.parts` instead of the `parts` attribute. -/
def sizeUpd2 : PData → Option SV := fun d =>
  some (d.assignment.parts.map (fun e => (e.1, e.2.card)))

/-- Scenario root with the literal `size` updater registered. -/
def scRootSizeE : Except CError (Partition SV) :=
  mkRoot scGraph (.dict scMap) [("size", sizeUpd)]

/-- Scenario merge with the literal `size` updater registered. -/
def scChildSizeE : Except CError (Partition SV) :=
  match scRootSizeE with
  | .error e => .error e
  | .ok P => P.merge [(2, 1)]

/-- Scenario root with the assignment-based `size` updater registered. -/
def scRootSize2E : Except CError (Partition SV) :=
  mkRoot scGraph (.dict scMap) [("size", sizeUpd2)]

/-- Scenario merge with the assignment-based `size` updater registered. -/
def scChildSize2E : Except CError (Partition SV) :=
  match scRootSize2E with
  | .error e => .error e
  | .ok P => P.merge [(2, 1)]

/-- A key is found exactly when it occurs among the keys. -/
theorem alookup_isSome_iff {α β : Type _} [DecidableEq α] (l : List (α × β)) (k : α) :
    (alookup l k).isSome ↔ k ∈ l.map Prod.fst := by
  induction l with
  | nil => simp [alookup]
  | cons e t ih =>
    by_cases h : e.1 = k
    · simp [alookup, h]
    · simp [alookup, h, ih, Ne.symm h]

/-- A key is missed exactly when it is absent from the keys. -/
theorem alookup_eq_none_iff {α β : Type _} [DecidableEq α] (l : List (α × β)) (k : α) :
    alookup l k = none ↔ k ∉ l.map Prod.fst := by
  rw [← alookup_isSome_iff]
  cases alookup l k <;> simp

/-- A found binding occurs in the list. -/
theorem mem_of_alookup_eq_some {α β : Type _} [DecidableEq α] {l : List (α × β)} {k : α}
    {v : β} (h : alookup l k = some v) : (k, v) ∈ l := by
  induction l with
  | nil => simp [alookup] at h
  | cons e t ih =>
    by_cases he : e.1 = k
    · simp [alookup, he] at h
      have : e = (k, v) := by
        cases e
        simp at he h ⊢
        exact ⟨he, h⟩
      rw [this]
      exact List.mem_cons_self _ _
    · simp [alookup, he] at h
      exact List.mem_cons_of_mem _ (ih h)

/-- With unique keys, every binding of the list is the one found. -/
theorem alookup_eq_some_of_mem {α β : Type _} [DecidableEq α] {l : List (α × β)} {k : α}
    {v : β} (hnd : (l.map Prod.fst).Nodup) (h : (k, v) ∈ l) : alookup l k = some v := by
  induction l with
  | nil => simp at h
  | cons e t ih =>
    simp at hnd
    rw [List.mem_cons] at h
    rcases h with h | h
    · rw [← h]
      simp [alookup]
    · have hne : e.1 ≠ k := fun c => hnd.1 v (by rw [c]; exact h)
      simp [alookup, hne]
      exact ih hnd.2 h

/-- Updating an entry's value keeps the key sequence. -/
theorem updateEntry_map_fst {α β : Type _} [DecidableEq α] (l : List (α × β)) (k : α)
    (v : β) : (updateEntry l k v).map Prod.fst = l.map Prod.fst := by
  induction l with
  | nil => simp [updateEntry]
  | cons e t ih =>
    by_cases h : e.1 = k
    · simp [updateEntry, h]
    · simp [updateEntry, h, ih]

/-- Updating a present key makes its lookup return the new value. -/
theorem alookup_updateEntry_self {α β : Type _} [DecidableEq α] {l : List (α × β)} {k : α}
    (v : β) (h : (alookup l k).isSome) : alookup (updateEntry l k v) k = some v := by
  induction l with
  | nil => simp [alookup] at h
  | cons e t ih =>
    by_cases he : e.1 = k
    · simp [updateEntry, he, alookup]
    · simp [alookup, he] at h
      simp [updateEntry, he, alookup, ih h]

/-- Updating one key leaves every other key's lookup unchanged. -/
theorem alookup_updateEntry_ne {α β : Type _} [DecidableEq α] (l : List (α × β)) (k : α)
    (v : β) (k2 : α) (h : k2 ≠ k) :
    alookup (updateEntry l k v) k2 = alookup l k2 := by
  induction l with
  | nil => simp [updateEntry]
  | cons e t ih =>
    by_cases he : e.1 = k
    · have h2 : e.1 ≠ k2 := by
        rw [he]
        exact Ne.symm h
      simp [updateEntry, he, alookup, Ne.symm h, h2]
    · by_cases he2 : e.1 = k2
      · simp [updateEntry, he, alookup, he2, h, ih]
      · simp [updateEntry, he, alookup, he2, ih]

/-- Lookup in an appended dict: the left list wins. -/
theorem alookup_append {α β : Type _} [DecidableEq α] (l1 l2 : List (α × β)) (k : α) :
    alookup (l1 ++ l2) k =
      match alookup l1 k with
      | some v => some v
      | none => alookup l2 k := by
  induction l1 with
  | nil => simp [alookup]
  | cons e t ih =>
    by_cases h : e.1 = k
    · simp [alookup, h]
    · simp [alookup, h, ih]

/-- Lookup through a value-rewriting map. -/
theorem alookup_map_valfun {α β γ : Type _} [DecidableEq α] (l : List (α × β))
    (g : α → β → γ) (k : α) :
    alookup (l.map (fun e => (e.1, g e.1 e.2))) k = (alookup l k).map (g k) := by
  induction l with
  | nil => simp [alookup]
  | cons e t ih =>
    by_cases h : e.1 = k
    · simp [alookup, h]
    · simp [alookup, h, ih]

/-- Lookup through a filter whose predicate depends only on the key. -/
theorem alookup_filter_keypred {α β : Type _} [DecidableEq α] (l : List (α × β))
    (q : α → Bool) (k : α) :
    alookup (l.filter (fun e => q e.1)) k = if q k then alookup l k else none := by
  induction l with
  | nil => simp [alookup]
  | cons e t ih =>
    by_cases h : e.1 = k
    · by_cases hq : q k
      · simp [List.filter, h, hq, alookup]
      · have hqe : q e.1 = false := by
          rw [h]
          simpa using hq
        simp [List.filter, hqe, ih, hq]
    · by_cases hq : q e.1
      · simp [List.filter, hq, alookup, h, ih]
      · simp [List.filter, hq, alookup, h, ih]

/-- Lookup in a dict built by tabulating a function over a key list. -/
theorem alookup_map_tab {α β : Type _} [DecidableEq α] (L : List α) (g : α → β) (k : α) :
    alookup (L.map (fun p => (p, g p))) k = if k ∈ L then some (g k) else none := by
  induction L with
  | nil => simp [alookup]
  | cons p t ih =>
    by_cases h : p = k
    · simp [alookup, h]
    · simp [alookup, h, ih, Ne.symm h]

/-- Membership of a node in the set stored under a part key of a parts dict. -/
def memP (l : List (PartId × Finset Node)) (p : PartId) (n : Node) : Prop :=
  ∃ s, alookup l p = some s ∧ n ∈ s

instance (l : List (PartId × Finset Node)) (p : PartId) (n : Node) :
    Decidable (memP l p n) :=
  match h : alookup l p with
  | some s => decidable_of_iff (n ∈ s) (by simp [memP, h])
  | none => .isFalse (by simp [memP, h])

/-- Well-formed parts dict: part keys are unique and the per-part sets are
pairwise disjoint (the spec's invariant that a node is in at most one part). -/
def WFparts (l : List (PartId × Finset Node)) : Prop :=
  (l.map Prod.fst).Nodup ∧ l.Pairwise (fun e f => e.2 ∩ f.2 = ∅)

instance (l : List (PartId × Finset Node)) : Decidable (WFparts l) :=
  inferInstanceAs (Decidable ((l.map Prod.fst).Nodup ∧
    l.Pairwise (fun e f : PartId × Finset Node => e.2 ∩ f.2 = ∅)))

/-- In a well-formed parts dict a node determines its part. -/
theorem memP_unique {l : List (PartId × Finset Node)} {p q : PartId} {n : Node}
    (wf : WFparts l) (h1 : memP l p n) (h2 : memP l q n) : p = q := by
  obtain ⟨s, hs, hns⟩ := h1
  obtain ⟨t, ht, hnt⟩ := h2
  by_contra hpq
  have hmem1 : (p, s) ∈ l := mem_of_alookup_eq_some hs
  have hmem2 : (q, t) ∈ l := mem_of_alookup_eq_some ht
  have hsym : Symmetric (fun e f : PartId × Finset Node => e.2 ∩ f.2 = ∅) := by
    intro e f h
    rw [Finset.inter_comm]
    exact h
  have hne : (p, s) ≠ (q, t) := by
    intro c
    exact hpq (congrArg Prod.fst c)
  have hdisj := wf.2.forall hsym hmem1 hmem2 hne
  have : n ∈ s ∩ t := Finset.mem_inter.2 ⟨hns, hnt⟩
  rw [hdisj] at this
  exact absurd this (Finset.not_mem_empty n)

/-- With unique keys, a successful `getitem` yields set membership. -/
theorem memP_of_getitem_some {a : Assignment} {n : Node} {p : PartId}
    (hnd : (a.parts.map Prod.fst).Nodup) (h : a.getitem n = some p) :
    memP a.parts p n := by
  unfold Assignment.getitem at h
  cases hf : a.parts.find? (fun e => decide (n ∈ e.2)) with
  | none => simp [hf] at h
  | some e =>
    simp [hf] at h
    have he1 : e ∈ a.parts := List.mem_of_find?_eq_some hf
    have he2 : n ∈ e.2 := by simpa using List.find?_some hf
    exact ⟨e.2, by rw [← h]; exact alookup_eq_some_of_mem hnd he1, he2⟩

/-- In a well-formed parts dict, set membership determines `getitem`. -/
theorem getitem_some_of_memP {a : Assignment} {n : Node} {p : PartId}
    (wf : WFparts a.parts) (h : memP a.parts p n) : a.getitem n = some p := by
  obtain ⟨s, hs, hns⟩ := h
  have hmem : (p, s) ∈ a.parts := mem_of_alookup_eq_some hs
  have hex : ∃ x, x ∈ a.parts ∧ (fun e : PartId × Finset Node => decide (n ∈ e.2)) x := by
    exact ⟨(p, s), hmem, by simpa using hns⟩
  have hsome : (a.parts.find? (fun e => decide (n ∈ e.2))).isSome := by
    rw [List.find?_isSome]
    exact hex
  cases hf : a.parts.find? (fun e => decide (n ∈ e.2)) with
  | none => rw [hf] at hsome; simp at hsome
  | some e =>
    have he1 : e ∈ a.parts := List.mem_of_find?_eq_some hf
    have he2 : n ∈ e.2 := by simpa using List.find?_some hf
    have hm2 : memP a.parts e.1 n :=
      ⟨e.2, alookup_eq_some_of_mem wf.1 he1, he2⟩
    have : e.1 = p := memP_unique wf hm2 ⟨s, hs, hns⟩
    unfold Assignment.getitem
    rw [hf]
    simp [this]

/-- `getitem` misses exactly when no part's set contains the node. -/
theorem getitem_eq_none_iff {a : Assignment} {n : Node} :
    a.getitem n = none ↔ ∀ e ∈ a.parts, n ∉ e.2 := by
  unfold Assignment.getitem
  rw [Option.map_eq_none']
  rw [List.find?_eq_none]
  simp

/-- `getitem` succeeds exactly when some part's set contains the node. -/
theorem getitem_isSome_iff {a : Assignment} {n : Node} :
    (a.getitem n).isSome ↔ ∃ e ∈ a.parts, n ∈ e.2 := by
  unfold Assignment.getitem
  have hmapSome : ∀ (x : Option (PartId × Finset Node)), (Option.map Prod.fst x).isSome = x.isSome := by
    intro x
    cases x <;> rfl
  rw [hmapSome, List.find?_isSome]
  simp

/-- Lookup after one `defaultdict` insertion. -/
theorem alookup_insertLS (acc : List (PartId × Finset Node)) (src : Node) (tgt : PartId)
    (p : PartId) :
    alookup (insertLS acc src tgt) p =
      if p = tgt then
        match alookup acc tgt with
        | some s => some (insert src s)
        | none => some {src}
      else alookup acc p := by
  induction acc with
  | nil =>
    by_cases h : p = tgt
    · simp [insertLS, alookup, h]
    · simp [insertLS, alookup, h, Ne.symm h]
  | cons e t ih =>
    by_cases he : e.1 = tgt
    · by_cases hp : p = tgt
      · simp [insertLS, he, alookup, hp]
      · have h2 : e.1 ≠ p := by rw [he]; exact Ne.symm hp
        simp [insertLS, he, alookup, hp, h2, Ne.symm hp]
    · by_cases hp : e.1 = p
      · have : ¬p = tgt := by rw [← hp]; exact he
        simp [insertLS, he, alookup, hp, this]
      · simp [insertLS, he, alookup, hp, ih]

/-- One `defaultdict` insertion extends the keys by at most the new key. -/
theorem insertLS_map_fst (acc : List (PartId × Finset Node)) (src : Node) (tgt : PartId) :
    (insertLS acc src tgt).map Prod.fst =
      if tgt ∈ acc.map Prod.fst then acc.map Prod.fst else acc.map Prod.fst ++ [tgt] := by
  induction acc with
  | nil => simp [insertLS]
  | cons e t ih =>
    by_cases he : e.1 = tgt
    · simp [insertLS, he]
    · simp [insertLS, he, ih, Ne.symm he]
      by_cases ht : tgt ∈ t.map Prod.fst <;> simp [ht, Ne.symm he]

/-- One `defaultdict` insertion keeps the keys unique. -/
theorem insertLS_nodup {acc : List (PartId × Finset Node)} {src : Node} {tgt : PartId}
    (h : (acc.map Prod.fst).Nodup) : ((insertLS acc src tgt).map Prod.fst).Nodup := by
  rw [insertLS_map_fst]
  by_cases ht : tgt ∈ acc.map Prod.fst
  · simp [ht, h]
  · simp [ht, h, List.nodup_append]

/-- Membership through one `defaultdict` insertion. -/
theorem memP_insertLS (acc : List (PartId × Finset Node)) (src : Node) (tgt : PartId)
    (p : PartId) (n : Node) :
    memP (insertLS acc src tgt) p n ↔ memP acc p n ∨ (n = src ∧ p = tgt) := by
  unfold memP
  rw [alookup_insertLS]
  by_cases hp : p = tgt
  · subst hp
    cases h : alookup acc p with
    | none =>
      simp [h]
    | some s =>
      simp [h, Finset.mem_insert]
      tauto
  · simp [hp]

/-- Membership in the `level_sets` accumulator run over a dict. -/
theorem memP_lsAux (m : List (Node × PartId)) :
    ∀ (acc : List (PartId × Finset Node)) (p : PartId) (n : Node),
      memP (lsAux acc m) p n ↔ memP acc p n ∨ (n, p) ∈ m := by
  induction m with
  | nil =>
    intro acc p n
    simp [lsAux]
  | cons e t ih =>
    intro acc p n
    rw [lsAux, ih, memP_insertLS]
    constructor
    · intro c
      rcases c with (c | c) | c
      · exact .inl c
      · refine .inr ?_
        rw [List.mem_cons]
        refine .inl ?_
        cases e
        simp at c
        simp [c]
      · exact .inr (List.mem_cons_of_mem _ c)
    · intro c
      rcases c with c | c
      · exact .inl (.inl c)
      · rw [List.mem_cons] at c
        rcases c with c | c
        · refine .inl (.inr ?_)
          cases e
          simp at c
          simp [c]
        · exact .inr c

/-- Keys of the `level_sets` accumulator stay unique. -/
theorem lsAux_nodup (m : List (Node × PartId)) :
    ∀ (acc : List (PartId × Finset Node)),
      (acc.map Prod.fst).Nodup → ((lsAux acc m).map Prod.fst).Nodup := by
  induction m with
  | nil =>
    intro acc h
    simpa [lsAux] using h
  | cons e t ih =>
    intro acc h
    rw [lsAux]
    exact ih _ (insertLS_nodup h)

/-- Membership in `level_sets` of a dict is exactly a binding of the dict. -/
theorem memP_level_sets (m : List (Node × PartId)) (p : PartId) (n : Node) :
    memP (level_sets m) p n ↔ (n, p) ∈ m := by
  rw [level_sets, memP_lsAux]
  simp [memP, alookup]

/-- Keys of `level_sets` are unique. -/
theorem level_sets_nodup (m : List (Node × PartId)) :
    ((level_sets m).map Prod.fst).Nodup := by
  rw [level_sets]
  exact lsAux_nodup m [] (by simp)

/-- A dict with unique keys binds each key to at most one value. -/
theorem nodup_keys_fun {m : List (Node × PartId)} {n : Node} {p q : PartId}
    (h : (m.map Prod.fst).Nodup) (h1 : (n, p) ∈ m) (h2 : (n, q) ∈ m) : p = q := by
  have e1 := alookup_eq_some_of_mem h h1
  have e2 := alookup_eq_some_of_mem h h2
  rw [e1] at e2
  exact Option.some.inj e2

/-- Unique keys plus a functional membership relation give pairwise disjoint
part sets. -/
theorem disjoint_of_functional {l : List (PartId × Finset Node)}
    (hnd : (l.map Prod.fst).Nodup)
    (hf : ∀ (n : Node) (p q : PartId), memP l p n → memP l q n → p = q) :
    l.Pairwise (fun e f => e.2 ∩ f.2 = ∅) := by
  induction l with
  | nil => exact List.Pairwise.nil
  | cons e t ih =>
    simp at hnd
    refine List.Pairwise.cons ?_ ?_
    · intro f hft
      rw [Finset.eq_empty_iff_forall_not_mem]
      intro x hx
      rw [Finset.mem_inter] at hx
      have hm1 : memP (e :: t) e.1 x := ⟨e.2, by simp [alookup], hx.1⟩
      have hfk : f.1 ∈ t.map Prod.fst := by
        have := List.mem_map_of_mem Prod.fst hft
        simpa using this
      have hne : e.1 ≠ f.1 := fun c => hnd.1 f.2 (by rw [c]; exact (by simpa using hft))
      have hm2 : memP (e :: t) f.1 x := by
        refine ⟨f.2, ?_, hx.2⟩
        simp [alookup, hne]
        exact alookup_eq_some_of_mem hnd.2 (by simpa using hft)
      exact absurd (hf x e.1 f.1 hm1 hm2) hne
    · refine ih hnd.2 ?_
      intro n p q hp hq
      have lift : ∀ (r : PartId), memP t r n → memP (e :: t) r n := by
        intro r hr
        obtain ⟨s, hs, hns⟩ := hr
        have hrk : r ∈ t.map Prod.fst := by
          rw [← alookup_isSome_iff]
          simp [hs]
        have hne : e.1 ≠ r := fun c => by
          rw [← c] at hrk
          obtain ⟨y, hy⟩ := by simpa using hrk
          exact hnd.1 y hy
        exact ⟨s, by simp [alookup, hne, hs], hns⟩
      exact hf n p q (lift p hp) (lift q hq)

/-- `from_dict` of a dict with unique keys yields a well-formed parts dict. -/
theorem from_dict_wf {m : List (Node × PartId)} (hm : (m.map Prod.fst).Nodup) :
    WFparts (Assignment.from_dict m).parts := by
  refine ⟨level_sets_nodup m, ?_⟩
  refine disjoint_of_functional (level_sets_nodup m) ?_
  intro n p q hp hq
  rw [show (Assignment.from_dict m).parts = level_sets m from rfl] at hp hq
  rw [memP_level_sets] at hp hq
  exact nodup_keys_fun hm hp hq

/-- `from_dict` of a dict with unique keys reproduces the dict's lookup. -/
theorem from_dict_getitem {m : List (Node × PartId)} (hm : (m.map Prod.fst).Nodup)
    (n : Node) : (Assignment.from_dict m).getitem n = alookup m n := by
  cases h : alookup m n with
  | some p =>
    refine getitem_some_of_memP (from_dict_wf hm) ?_
    rw [show (Assignment.from_dict m).parts = level_sets m from rfl, memP_level_sets]
    exact mem_of_alookup_eq_some h
  | none =>
    rw [getitem_eq_none_iff]
    intro e he hne
    have hmem : memP (level_sets m) e.1 n := by
      refine ⟨e.2, ?_, hne⟩
      exact alookup_eq_some_of_mem (level_sets_nodup m) he
    rw [memP_level_sets] at hmem
    have : n ∈ m.map Prod.fst := by
      have := List.mem_map_of_mem Prod.fst hmem
      simpa using this
    rw [alookup_eq_none_iff] at h
    exact h this

/-- Characterization of a changed triple: a delta binding whose node is
currently assigned to a different part. -/
theorem mem_changedTriples {a : Assignment} {D : List (Node × PartId)} {n : Node}
    {o q : PartId} :
    (n, o, q) ∈ changedTriples a D ↔ (n, q) ∈ D ∧ a.getitem n = some o ∧ o ≠ q := by
  unfold changedTriples
  rw [List.mem_filterMap]
  constructor
  · rintro ⟨e, he, hfe⟩
    cases hg : a.getitem e.1 with
    | none => simp [hg] at hfe
    | some r =>
      simp only [hg] at hfe
      by_cases hr : r = e.2
      · simp [hr] at hfe
      · simp [hr] at hfe
        obtain ⟨h1, h2, h3⟩ := hfe
        refine ⟨?_, ?_, ?_⟩
        · rw [← h1, ← h3]
          exact (by simpa using he)
        · rw [← h1, hg, h2]
        · rw [← h2, ← h3]
          exact hr
  · rintro ⟨hD, hg, hne⟩
    refine ⟨(n, q), hD, ?_⟩
    simp [hg, hne]

/-- A successful flow derivation means every delta node was found. -/
theorem flows_ok_all_some {a : Assignment} {D : List (Node × PartId)}
    {F : List (PartId × FlowRec)} (h : flows_from_changes a D = .ok F) :
    ∀ e ∈ D, (a.getitem e.1).isSome := by
  unfold flows_from_changes at h
  cases hf : D.find? (fun e => (a.getitem e.1).isNone) with
  | some e => rw [hf] at h; exact absurd h (by simp)
  | none =>
    rw [List.find?_eq_none] at hf
    intro e he
    have := hf e he
    simpa [Option.isNone_iff_eq_none, Option.isSome_iff_ne_none] using this

/-- A successful flow derivation yields the tabulated flows dict. -/
theorem flows_ok_eq {a : Assignment} {D : List (Node × PartId)}
    {F : List (PartId × FlowRec)} (h : flows_from_changes a D = .ok F) :
    F = (touchedParts a D).map (fun p => (p, flowAt a D p)) := by
  unfold flows_from_changes at h
  cases hf : D.find? (fun e => (a.getitem e.1).isNone) with
  | some e => rw [hf] at h; exact absurd h (by simp)
  | none =>
    rw [hf] at h
    exact (Except.ok.inj h).symm

/-- Flow derivation succeeds when every delta node is found. -/
theorem flows_ok_of_all_some {a : Assignment} {D : List (Node × PartId)}
    (h : ∀ e ∈ D, (a.getitem e.1).isSome) :
    flows_from_changes a D = .ok ((touchedParts a D).map (fun p => (p, flowAt a D p))) := by
  unfold flows_from_changes
  cases hf : D.find? (fun e => (a.getitem e.1).isNone) with
  | some e =>
    have h1 := List.find?_some hf
    have h2 := List.mem_of_find?_eq_some hf
    have := h e h2
    rw [Option.isSome_iff_ne_none] at this
    rw [Option.isNone_iff_eq_none] at h1
    exact absurd (by simpa using h1) this
  | none => rfl

/-- Lookup in the flows dict. -/
theorem alookup_flows {a : Assignment} {D : List (Node × PartId)} (p : PartId) :
    alookup ((touchedParts a D).map (fun p => (p, flowAt a D p))) p =
      if p ∈ touchedParts a D then some (flowAt a D p) else none :=
  alookup_map_tab _ _ _

/-- The keys of the flows dict are unique. -/
theorem flows_keys_nodup (a : Assignment) (D : List (Node × PartId)) :
    (((touchedParts a D).map (fun p => (p, flowAt a D p))).map Prod.fst).Nodup := by
  have : ((touchedParts a D).map (fun p => (p, flowAt a D p))).map Prod.fst
      = touchedParts a D := by
    rw [List.map_map]
    exact List.map_id _
  rw [this]
  exact List.nodup_dedup _

/-- A part is touched exactly when some changed node leaves or enters it. -/
theorem mem_touchedParts {a : Assignment} {D : List (Node × PartId)} {p : PartId} :
    p ∈ touchedParts a D ↔
      ∃ c ∈ changedTriples a D, c.2.1 = p ∨ c.2.2 = p := by
  unfold touchedParts
  rw [List.mem_dedup, List.mem_append]
  constructor
  · intro h
    rcases h with h | h <;> rw [List.mem_map] at h <;> obtain ⟨c, hc, hcp⟩ := h
    · exact ⟨c, hc, .inl hcp⟩
    · exact ⟨c, hc, .inr hcp⟩
  · rintro ⟨c, hc, hcp | hcp⟩
    · exact .inl (List.mem_map.2 ⟨c, hc, hcp⟩)
    · exact .inr (List.mem_map.2 ⟨c, hc, hcp⟩)

/-- Membership in a part's "in" set of the derived flow. -/
theorem mem_flowAt_inn {a : Assignment} {D : List (Node × PartId)} {p : PartId} {n : Node} :
    n ∈ (flowAt a D p).inn ↔ ∃ o, (n, o, p) ∈ changedTriples a D := by
  unfold flowAt
  rw [show (FlowRec.mk
      ((changedTriples a D).filterMap (fun c => if c.2.2 = p then some c.1 else none)).toFinset
      ((changedTriples a D).filterMap (fun c => if c.2.1 = p then some c.1 else none)).toFinset).inn
    = ((changedTriples a D).filterMap (fun c => if c.2.2 = p then some c.1 else none)).toFinset
    from rfl]
  rw [List.mem_toFinset, List.mem_filterMap]
  constructor
  · rintro ⟨c, hc, hfc⟩
    by_cases h2 : c.2.2 = p
    · simp [h2] at hfc
      exact ⟨c.2.1, by rw [← hfc, ← h2]; exact hc⟩
    · simp [h2] at hfc
  · rintro ⟨o, ho⟩
    exact ⟨(n, o, p), ho, by simp⟩

/-- Membership in a part's "out" set of the derived flow. -/
theorem mem_flowAt_out {a : Assignment} {D : List (Node × PartId)} {p : PartId} {n : Node} :
    n ∈ (flowAt a D p).out ↔ ∃ q, (n, p, q) ∈ changedTriples a D := by
  unfold flowAt
  rw [show (FlowRec.mk
      ((changedTriples a D).filterMap (fun c => if c.2.2 = p then some c.1 else none)).toFinset
      ((changedTriples a D).filterMap (fun c => if c.2.1 = p then some c.1 else none)).toFinset).out
    = ((changedTriples a D).filterMap (fun c => if c.2.1 = p then some c.1 else none)).toFinset
    from rfl]
  rw [List.mem_toFinset, List.mem_filterMap]
  constructor
  · rintro ⟨c, hc, hfc⟩
    by_cases h2 : c.2.1 = p
    · simp [h2] at hfc
      exact ⟨c.2.2, by rw [← hfc, ← h2]; exact hc⟩
    · simp [h2] at hfc
  · rintro ⟨q, hq⟩
    exact ⟨(n, p, q), hq, by simp⟩

/-- The flow-application loop keeps the part key sequence. -/
theorem applyFlows_ok_fst {ps : List (PartId × Finset Node)} {F : List (PartId × FlowRec)}
    {ps2 : List (PartId × Finset Node)} (h : applyFlows ps F = .ok ps2) :
    ps2.map Prod.fst = ps.map Prod.fst := by
  induction F generalizing ps with
  | nil =>
    unfold applyFlows at h
    rw [Except.ok.inj h]
  | cons e rest ih =>
    obtain ⟨p, fl⟩ := e
    unfold applyFlows at h
    cases hl : alookup ps p with
    | none => rw [hl] at h; exact absurd h (by simp)
    | some s =>
      rw [hl] at h
      rw [ih h, updateEntry_map_fst]

/-- A successful flow application found every flow part in the dict. -/
theorem applyFlows_ok_all_some {ps : List (PartId × Finset Node)}
    {F : List (PartId × FlowRec)} {ps2 : List (PartId × Finset Node)}
    (h : applyFlows ps F = .ok ps2) : ∀ e ∈ F, (alookup ps e.1).isSome := by
  induction F generalizing ps with
  | nil => simp
  | cons e rest ih =>
    obtain ⟨p, fl⟩ := e
    unfold applyFlows at h
    cases hl : alookup ps p with
    | none => rw [hl] at h; exact absurd h (by simp)
    | some s =>
      rw [hl] at h
      intro f hf
      rw [List.mem_cons] at hf
      rcases hf with hf | hf
      · rw [hf]
        simp [hl]
      · have := ih h f hf
        by_cases hfp : f.1 = p
        · simp [hfp, hl]
        · rw [alookup_updateEntry_ne _ _ _ _ hfp] at this
          exact this

/-- Lookup after a successful flow application: a touched part's set is
replaced by `(old - out) ∪ in`, an untouched part's set is unchanged. -/
theorem applyFlows_ok_lookup {ps : List (PartId × Finset Node)}
    {F : List (PartId × FlowRec)} {ps2 : List (PartId × Finset Node)}
    (hF : (F.map Prod.fst).Nodup) (h : applyFlows ps F = .ok ps2) (p : PartId) :
    alookup ps2 p =
      match alookup F p with
      | some fl => (alookup ps p).map (fun s => (s \ fl.out) ∪ fl.inn)
      | none => alookup ps p := by
  induction F generalizing ps with
  | nil =>
    unfold applyFlows at h
    rw [Except.ok.inj h]
    simp [alookup]
  | cons e rest ih =>
    obtain ⟨q, fl⟩ := e
    rw [List.map_cons, List.nodup_cons] at hF
    unfold applyFlows at h
    cases hl : alookup ps q with
    | none => rw [hl] at h; exact absurd h (by simp)
    | some s =>
      rw [hl] at h
      have hrec := ih hF.2 h
      by_cases hpq : p = q
      · subst hpq
        have hnr : alookup rest p = none := by
          rw [alookup_eq_none_iff]
          exact hF.1
        rw [hnr] at hrec
        rw [hrec, alookup_updateEntry_self _ (by simp [hl])]
        simp [alookup, hl]
      · have hne : q ≠ p := Ne.symm hpq
        rw [alookup_updateEntry_ne _ _ _ _ hpq] at hrec
        rw [hrec]
        simp [alookup, hne]

/-- If some flow part is missing from the parts dict, the application loop
raises `KeyError` at a missing part. -/
theorem applyFlows_error_of_missing {ps : List (PartId × Finset Node)}
    {F : List (PartId × FlowRec)} (h : ∃ e ∈ F, alookup ps e.1 = none) :
    ∃ q, applyFlows ps F = .error (.keyError q) ∧ alookup ps q = none := by
  induction F generalizing ps with
  | nil => simp at h
  | cons e rest ih =>
    obtain ⟨p, fl⟩ := e
    cases hl : alookup ps p with
    | none =>
      exact ⟨p, by unfold applyFlows; rw [hl], hl⟩
    | some s =>
      obtain ⟨f, hf, hfl⟩ := h
      rw [List.mem_cons] at hf
      rcases hf with hf | hf
      · rw [hf] at hfl
        simp at hfl
        rw [hfl] at hl
        exact absurd hl (by simp)
      · have hfp : f.1 ≠ p := by
          intro c
          rw [c, hl] at hfl
          exact absurd hfl (by simp)
        have hmiss : alookup (updateEntry ps p ((s \ fl.out) ∪ fl.inn)) f.1 = none := by
          rw [alookup_updateEntry_ne _ _ _ _ hfp]
          exact hfl
        obtain ⟨q, hq1, hq2⟩ := ih ⟨f, hf, hmiss⟩
        refine ⟨q, ?_, ?_⟩
        · unfold applyFlows
          rw [hl]
          exact hq1
        · by_cases hqp : q = p
          · exfalso
            rw [hqp, alookup_updateEntry_self _ (by simp [hl])] at hq2
            exact absurd hq2 (by simp)
          · rw [alookup_updateEntry_ne _ _ _ _ hqp] at hq2
            exact hq2

/-- The intended part of a node after a delta: the delta's binding when
present, the current assignment's part otherwise (override semantics). -/
def finalLU (a : Assignment) (D : List (Node × PartId)) (n : Node) : Option PartId :=
  match alookup D n with
  | some q => some q
  | none => a.getitem n

/-- A successful `Assignment.update` decomposes into a successful flow
derivation followed by a successful flow application. -/
theorem update_ok_elim {a : Assignment} {D : List (Node × PartId)} {a2 : Assignment}
    (hok : a.update D = .ok a2) :
    ∃ ps2, flows_from_changes a D = .ok ((touchedParts a D).map (fun p => (p, flowAt a D p))) ∧
      applyFlows a.parts ((touchedParts a D).map (fun p => (p, flowAt a D p))) = .ok ps2 ∧
      a2 = ⟨ps2⟩ := by
  unfold Assignment.update at hok
  cases hf : flows_from_changes a D with
  | error e => rw [hf] at hok; exact absurd hok (by simp)
  | ok F =>
    rw [hf] at hok
    have hFeq := flows_ok_eq hf
    subst hFeq
    dsimp only at hok
    cases ha : applyFlows a.parts ((touchedParts a D).map (fun p => (p, flowAt a D p))) with
    | error e =>
      rw [ha] at hok
      exact absurd hok (by simp)
    | ok ps2 =>
      rw [ha] at hok
      dsimp only at hok
      exact ⟨ps2, rfl, rfl, (Except.ok.inj hok).symm⟩

/-- Characterization of a successful `Assignment.update` on a well-formed
assignment: the part keys are unchanged, and a node is in a part's new set
exactly when that part is the node's intended final part under the delta. -/
theorem update_ok_memP {a : Assignment} {D : List (Node × PartId)} {a2 : Assignment}
    (wf : WFparts a.parts) (hD : (D.map Prod.fst).Nodup)
    (hok : a.update D = .ok a2) :
    a2.parts.map Prod.fst = a.parts.map Prod.fst ∧
      ∀ n p, memP a2.parts p n ↔ finalLU a D n = some p := by
  obtain ⟨ps2, hf, ha, ha2⟩ := update_ok_elim hok
  have hall : ∀ e ∈ D, (a.getitem e.1).isSome := flows_ok_all_some hf
  have hkeys : ps2.map Prod.fst = a.parts.map Prod.fst := applyFlows_ok_fst ha
  subst ha2
  refine ⟨hkeys, ?_⟩
  intro n p
  have hmemD : ∀ {q : PartId}, (n, q) ∈ D ↔ alookup D n = some q := by
    intro q
    exact ⟨alookup_eq_some_of_mem hD, mem_of_alookup_eq_some⟩
  have hlk := applyFlows_ok_lookup (flows_keys_nodup a D) ha p
  rw [alookup_flows] at hlk
  by_cases hp : p ∈ touchedParts a D
  · -- the part is touched: its set was replaced by (old - out) ∪ in
    rw [if_pos hp] at hlk
    have hsome : (alookup a.parts p).isSome := by
      refine applyFlows_ok_all_some ha (p, flowAt a D p) ?_
      exact List.mem_map.2 ⟨p, hp, rfl⟩
    obtain ⟨s, hs⟩ := Option.isSome_iff_exists.1 hsome
    rw [hs] at hlk
    simp only [Option.map_some] at hlk
    have hmem : memP ps2 p n ↔ n ∈ (s \ (flowAt a D p).out) ∪ (flowAt a D p).inn := by
      unfold memP
      rw [hlk]
      simp
    rw [hmem, Finset.mem_union, Finset.mem_sdiff, mem_flowAt_inn, mem_flowAt_out]
    have hins : n ∈ s ↔ a.getitem n = some p := by
      constructor
      · intro hns
        exact getitem_some_of_memP wf ⟨s, hs, hns⟩
      · intro hg
        obtain ⟨t, ht, hnt⟩ := memP_of_getitem_some wf.1 hg
        rw [hs] at ht
        rw [Option.some.inj ht]
        exact hnt
    cases hDn : alookup D n with
    | some r =>
      have hgn : (a.getitem n).isSome := by
        refine hall (n, r) ?_
        exact hmemD.2 hDn
      obtain ⟨o, ho⟩ := Option.isSome_iff_exists.1 hgn
      simp only [finalLU, hDn]
      constructor
      · rintro (⟨hns, hnout⟩ | hinn)
        · -- the node stayed: its old part is p and it did not leave
          rw [hins] at hns
          have ho2 : o = p := by
            rw [hns] at ho
            exact (Option.some.inj ho).symm
          by_cases hrp : r = p
          · rw [hrp]
          · exfalso
            refine hnout ⟨r, ?_⟩
            rw [mem_changedTriples]
            exact ⟨hmemD.2 hDn, hns, Ne.symm hrp⟩
        · -- the node entered p
          obtain ⟨o2, ho2⟩ := hinn
          rw [mem_changedTriples] at ho2
          have := hmemD.1 ho2.1
          rw [hDn] at this
          rw [Option.some.inj this]
      · intro hr
        have hrp : r = p := Option.some.inj hr
        subst hrp
        by_cases hop : o = r
        · -- no-op binding: the node was already in r and is not a change
          refine .inl ⟨?_, ?_⟩
          · rw [hins, ho, hop]
          · rintro ⟨q2, hq2⟩
            rw [mem_changedTriples] at hq2
            have : alookup D n = some q2 := hmemD.1 hq2.1
            rw [hDn] at this
            have hq2r : q2 = r := (Option.some.inj this).symm
            have : a.getitem n = some r := hq2.2.1
            rw [ho] at this
            exact hq2.2.2 (by rw [hq2r, ← Option.some.inj this, hop])
        · -- genuine change into r
          refine .inr ⟨o, ?_⟩
          rw [mem_changedTriples]
          exact ⟨hmemD.2 hDn, ho, hop⟩
    | none =>
      simp only [finalLU, hDn]
      constructor
      · rintro (⟨hns, _⟩ | hinn)
        · rw [← hins]
          exact hns
        · exfalso
          obtain ⟨o2, ho2⟩ := hinn
          rw [mem_changedTriples] at ho2
          have := hmemD.1 ho2.1
          rw [hDn] at this
          exact absurd this (by simp)
      · intro hg
        refine .inl ⟨hins.2 hg, ?_⟩
        rintro ⟨q2, hq2⟩
        rw [mem_changedTriples] at hq2
        have := hmemD.1 hq2.1
        rw [hDn] at this
        exact absurd this (by simp)
  · -- the part is untouched: its set is unchanged
    rw [if_neg hp] at hlk
    have hmem : memP ps2 p n ↔ memP a.parts p n := by
      unfold memP
      rw [hlk]
    rw [hmem]
    have hiff : memP a.parts p n ↔ a.getitem n = some p := by
      constructor
      · exact getitem_some_of_memP wf
      · exact memP_of_getitem_some wf.1
    rw [hiff]
    cases hDn : alookup D n with
    | some r =>
      simp only [finalLU, hDn]
      have hgn : (a.getitem n).isSome := hall (n, r) (hmemD.2 hDn)
      obtain ⟨o, ho⟩ := Option.isSome_iff_exists.1 hgn
      constructor
      · intro hg
        have hop : o = p := by
          rw [hg] at ho
          exact (Option.some.inj ho).symm
        by_cases hrp : r = p
        · rw [hrp]
        · exfalso
          refine hp ?_
          rw [mem_touchedParts]
          refine ⟨(n, p, r), ?_, .inl rfl⟩
          rw [mem_changedTriples]
          exact ⟨hmemD.2 hDn, hg, Ne.symm hrp⟩
      · intro hr
        have hrp : r = p := Option.some.inj hr
        subst hrp
        by_cases hor : o = r
        · rw [ho, hor]
        · exfalso
          refine hp ?_
          rw [mem_touchedParts]
          refine ⟨(n, o, r), ?_, .inr rfl⟩
          rw [mem_changedTriples]
          exact ⟨hmemD.2 hDn, ho, hor⟩
    | none =>
      simp only [finalLU, hDn]

/-- A successful update of a well-formed assignment is well-formed. -/
theorem update_wf {a : Assignment} {D : List (Node × PartId)} {a2 : Assignment}
    (wf : WFparts a.parts) (hD : (D.map Prod.fst).Nodup)
    (hok : a.update D = .ok a2) : WFparts a2.parts := by
  obtain ⟨hkeys, hchar⟩ := update_ok_memP wf hD hok
  refine ⟨by rw [hkeys]; exact wf.1, ?_⟩
  refine disjoint_of_functional (by rw [hkeys]; exact wf.1) ?_
  intro n p q hp hq
  rw [hchar] at hp hq
  rw [hp] at hq
  exact Option.some.inj hq

/-- Node lookup after a successful update of a well-formed assignment gives
the node's intended final part. -/
theorem update_getitem {a : Assignment} {D : List (Node × PartId)} {a2 : Assignment}
    (wf : WFparts a.parts) (hD : (D.map Prod.fst).Nodup)
    (hok : a.update D = .ok a2) (n : Node) :
    a2.getitem n = finalLU a D n := by
  obtain ⟨hkeys, hchar⟩ := update_ok_memP wf hD hok
  have wf2 : WFparts a2.parts := update_wf wf hD hok
  cases hfin : finalLU a D n with
  | some p =>
    exact getitem_some_of_memP wf2 ((hchar n p).2 hfin)
  | none =>
    rw [getitem_eq_none_iff]
    intro e he hne
    have : memP a2.parts e.1 n :=
      ⟨e.2, alookup_eq_some_of_mem wf2.1 he, hne⟩
    rw [hchar, hfin] at this
    exact absurd this (by simp)

/-- The element list of a finite node set enumerates its members. -/
theorem mem_fsList {s : Finset Node} {n : Node} : n ∈ fsList s ↔ n ∈ s := by
  unfold fsList
  rw [List.mem_filter]
  constructor
  · intro h
    simpa using h.2
  · intro h
    refine ⟨?_, by simpa using h⟩
    rw [List.mem_range]
    have h2 : id n ≤ s.sup id := Finset.le_sup h
    exact Nat.lt_succ_of_le h2

/-- The element list of a finite node set has no duplicates. -/
theorem fsList_nodup (s : Finset Node) : (fsList s).Nodup :=
  (List.nodup_range _).filter _

/-- Lookup in the items sequence agrees with `getitem`. -/
theorem alookup_items (a : Assignment) (n : Node) :
    alookup a.items n = a.getitem n := by
  unfold Assignment.items Assignment.getitem
  induction a.parts with
  | nil => simp [alookup]
  | cons e t ih =>
    rw [List.map_cons, List.flatten_cons, alookup_append]
    have hblock : alookup ((fsList e.2).map (fun m => (m, e.1))) n =
        if n ∈ fsList e.2 then some e.1 else none := alookup_map_tab _ _ _
    by_cases hn : n ∈ e.2
    · rw [hblock]
      simp [mem_fsList.2 hn, List.find?_cons, hn]
    · rw [hblock]
      have : n ∉ fsList e.2 := fun c => hn (mem_fsList.1 c)
      simp only [this, if_neg, ite_false]
      rw [ih]
      simp [List.find?_cons, hn]

/-- The items sequence of a well-formed assignment lists each node once. -/
theorem items_keys_nodup {a : Assignment} (wf : WFparts a.parts) :
    (a.items.map Prod.fst).Nodup := by
  unfold Assignment.items
  rw [List.map_flatten]
  have hfun : (List.map Prod.fst ∘ fun e : PartId × Finset Node =>
      (fsList e.2).map (fun m => (m, e.1))) = fun e => fsList e.2 := by
    funext e
    show ((fsList e.2).map fun m => (m, e.1)).map Prod.fst = fsList e.2
    rw [List.map_map]
    have hid : (Prod.fst ∘ fun m : Node => (m, e.1)) = id := by
      funext x
      rfl
    rw [hid, List.map_id]
  rw [List.map_map, hfun, List.nodup_flatten]
  constructor
  · intro l hl
    rw [List.mem_map] at hl
    obtain ⟨e, _, hbe⟩ := hl
    rw [← hbe]
    exact fsList_nodup e.2
  · refine List.Pairwise.map _ ?_ wf.2
    intro e f hef x hx1 hx2
    have h1 : x ∈ e.2 := mem_fsList.1 hx1
    have h2 : x ∈ f.2 := mem_fsList.1 hx2
    have hx : x ∈ e.2 ∩ f.2 := Finset.mem_inter.2 ⟨h1, h2⟩
    rw [hef] at hx
    exact absurd hx (Finset.not_mem_empty x)

/-- The from-scratch rebuild input of the spec's equivalence property:
Python's `dict.update` override, keeping the base dict's key order with the
delta's values, then appending the delta's new keys. -/
def overrideD (base D : List (Node × PartId)) : List (Node × PartId) :=
  base.map (fun e => (e.1, (alookup D e.1).getD e.2)) ++
    D.filter (fun e => (alookup base e.1).isNone)

/-- Lookup in the override dict: the delta's binding wins where the base has
the key, the delta's own bindings cover the rest. -/
theorem alookup_overrideD (base D : List (Node × PartId)) (n : Node) :
    alookup (overrideD base D) n =
      match alookup base n with
      | some p => some ((alookup D n).getD p)
      | none => alookup D n := by
  unfold overrideD
  rw [alookup_append, alookup_map_valfun base (fun k v => (alookup D k).getD v) n,
    alookup_filter_keypred D (fun k => (alookup base k).isNone) n]
  cases hb : alookup base n with
  | some p => simp [hb]
  | none => simp [hb]

/-- The override dict has unique keys when base and delta do. -/
theorem overrideD_nodup {base D : List (Node × PartId)}
    (hb : (base.map Prod.fst).Nodup) (hD : (D.map Prod.fst).Nodup) :
    ((overrideD base D).map Prod.fst).Nodup := by
  unfold overrideD
  rw [List.map_append, List.nodup_append]
  refine ⟨?_, ?_, ?_⟩
  · have : (base.map (fun e => (e.1, (alookup D e.1).getD e.2))).map Prod.fst
        = base.map Prod.fst := by
      rw [List.map_map]
      rfl
    rw [this]
    exact hb
  · have hsub : (D.filter (fun e => (alookup base e.1).isNone)).map Prod.fst
        |>.Sublist (D.map Prod.fst) :=
      (List.filter_sublist D).map Prod.fst
    exact hD.sublist hsub
  · intro k hk1 hk2
    have hk1b : k ∈ base.map Prod.fst := by
      rw [List.map_map] at hk1
      exact (by simpa using hk1)
    rw [List.mem_map] at hk2
    obtain ⟨e, he, hek⟩ := hk2
    rw [List.mem_filter] at he
    have : alookup base e.1 = none := by
      have := he.2
      simpa using this
    rw [alookup_eq_none_iff] at this
    rw [hek] at this
    exact this hk1b

/-- Assignment-level incremental/full-recompute equivalence: a successful
incremental update agrees on every node with the assignment rebuilt from
scratch out of the overridden items dict. -/
theorem update_vs_from_scratch {a : Assignment} {D : List (Node × PartId)} {a2 : Assignment}
    (wf : WFparts a.parts) (hD : (D.map Prod.fst).Nodup)
    (hok : a.update D = .ok a2) (n : Node) :
    a2.getitem n = (Assignment.from_dict (overrideD a.items D)).getitem n := by
  rw [update_getitem wf hD hok n,
    from_dict_getitem (overrideD_nodup (items_keys_nodup wf) hD) n,
    alookup_overrideD, alookup_items]
  unfold finalLU
  cases hDn : alookup D n with
  | some q => cases a.getitem n <;> simp [hDn]
  | none => cases a.getitem n <;> simp [hDn]

/-- Decomposition of a successful merge into its construction steps. -/
theorem merge_ok_elim {V : Type} {P : Partition V} {flips : List (Node × PartId)}
    {P2 : Partition V} (h : P.merge flips = .ok P2) :
    ∃ a2 cache lg,
      P.data.assignment.update flips = .ok a2 ∧
      flows_from_changes P.data.assignment flips =
        .ok ((touchedParts P.data.assignment flips).map
          (fun p => (p, flowAt P.data.assignment flips p))) ∧
      runUpdaters
        { P.data with
          assignment := a2, flips := some flips,
          flows := some ((touchedParts P.data.assignment flips).map
            (fun p => (p, flowAt P.data.assignment flips p))),
          edge_flows := some (compute_edge_flows P.data.assignment a2 flips
            P.data.graphEdges) }
        P.updaters [] [] = .ok (cache, lg) ∧
      P2 = ⟨{ P.data with
          assignment := a2, flips := some flips,
          flows := some ((touchedParts P.data.assignment flips).map
            (fun p => (p, flowAt P.data.assignment flips p))),
          edge_flows := some (compute_edge_flows P.data.assignment a2 flips
            P.data.graphEdges) },
        P.updaters, cache, lg⟩ := by
  unfold Partition.merge at h
  cases hu : (P.data.assignment.copy).update flips with
  | error e => rw [hu] at h; exact absurd h (by simp)
  | ok a2 =>
    rw [hu] at h
    dsimp only at h
    cases hf : flows_from_changes P.data.assignment flips with
    | error e => rw [hf] at h; exact absurd h (by simp)
    | ok F =>
      rw [hf] at h
      dsimp only at h
      have hFeq := flows_ok_eq hf
      subst hFeq
      cases hr : runUpdaters
          { P.data with
            assignment := a2, flips := some flips,
            flows := some ((touchedParts P.data.assignment flips).map
              (fun p => (p, flowAt P.data.assignment flips p))),
            edge_flows := some (compute_edge_flows P.data.assignment a2 flips
              P.data.graphEdges) }
          P.updaters [] [] with
      | error e => rw [hr] at h; exact absurd h (by simp)
      | ok cl =>
        rw [hr] at h
        dsimp only at h
        refine ⟨a2, cl.1, cl.2, hu, rfl, by rw [hr], ?_⟩
        rw [← Except.ok.inj h]

/-- Decomposition of a successful root construction into its steps. -/
theorem mkRoot_ok_elim {V : Type} {g : Graph} {arg : AssignmentArg}
    {us : List (String × (PData → Option V))} {P : Partition V}
    (h : mkRoot g arg us = .ok P) :
    ∃ a cache lg,
      get_assignment arg g = .ok a ∧
      runUpdaters ⟨g.nodes, g.edges, a, .dict (level_sets a.items), none, none, none⟩
        us [] [] = .ok (cache, lg) ∧
      P = ⟨⟨g.nodes, g.edges, a, .labels ((level_sets a.items).map Prod.fst),
          none, none, none⟩, us, cache, lg⟩ := by
  unfold mkRoot at h
  cases ha : get_assignment arg g with
  | error e => rw [ha] at h; exact absurd h (by simp)
  | ok a =>
    rw [ha] at h
    dsimp only at h
    cases hr : runUpdaters ⟨g.nodes, g.edges, a, .dict (level_sets a.items),
        none, none, none⟩ us [] [] with
    | error e => rw [hr] at h; exact absurd h (by simp)
    | ok cl =>
      rw [hr] at h
      dsimp only at h
      refine ⟨a, cl.1, cl.2, rfl, by rw [hr], ?_⟩
      rw [← Except.ok.inj h]

/-- Appending cannot change the lookup of a key already bound. -/
theorem alookup_append_left {α β : Type _} [DecidableEq α] {l1 : List (α × β)}
    (l2 : List (α × β)) {k : α} (h : (alookup l1 k).isSome) :
    alookup (l1 ++ l2) k = alookup l1 k := by
  rw [alookup_append]
  cases hl : alookup l1 k with
  | some v => rfl
  | none => rw [hl] at h; simp at h

/-- Appending a differently-keyed binding does not change a lookup. -/
theorem alookup_append_single_ne {α β : Type _} [DecidableEq α] (l : List (α × β))
    {k k2 : α} (v : β) (h : k ≠ k2) :
    alookup (l ++ [(k, v)]) k2 = alookup l k2 := by
  rw [alookup_append]
  cases hl : alookup l k2 with
  | some w => rfl
  | none => simp [alookup, h]

/-- Appending a binding for an unbound key makes its lookup return it. -/
theorem alookup_append_single_self {α β : Type _} [DecidableEq α] {l : List (α × β)}
    {k : α} (v : β) (h : alookup l k = none) :
    alookup (l ++ [(k, v)]) k = some v := by
  rw [alookup_append, h]
  simp [alookup]

/-- The updater loop never touches cache entries or log counts of names
outside the registry suffix it still has to process. -/
theorem runU_frame {V : Type} {d : PData} {us : List (String × (PData → Option V))}
    {c0 : List (String × V)} {l0 : List String} {c : List (String × V)} {l : List String}
    {n : String} (hn : n ∉ us.map Prod.fst)
    (h : runUpdaters d us c0 l0 = .ok (c, l)) :
    l.count n = l0.count n ∧ alookup c n = alookup c0 n := by
  induction us generalizing c0 l0 with
  | nil =>
    unfold runUpdaters at h
    have h2 := Except.ok.inj h
    injection h2 with hc hl
    subst hc
    subst hl
    exact ⟨rfl, rfl⟩
  | cons e rest ih =>
    obtain ⟨k, f⟩ := e
    rw [List.map_cons, List.mem_cons] at hn
    push_neg at hn
    unfold runUpdaters at h
    by_cases hc : (alookup c0 k).isSome
    · rw [if_pos hc] at h
      exact ih hn.2 h
    · rw [if_neg hc] at h
      cases hf : f d with
      | none => rw [hf] at h; exact absurd h (by simp)
      | some v =>
        rw [hf] at h
        obtain ⟨h1, h2⟩ := ih hn.2 h
        refine ⟨?_, ?_⟩
        · have hkn2 : ¬k = n := fun hck => hn.1 hck.symm
          have hz : List.count n [k] = 0 := by
            rw [List.count_eq_zero]
            intro hm
            rw [List.mem_singleton] at hm
            exact hkn2 hm.symm
          rw [h1, List.count_append, hz]
          exact Nat.add_zero _
        · exact h2.trans (alookup_append_single_ne _ _ (fun hck => hn.1 hck.symm))

/-- A cache entry present before the updater loop survives it unchanged. -/
theorem runU_mono {V : Type} {d : PData} {us : List (String × (PData → Option V))}
    {c0 : List (String × V)} {l0 : List String} {c : List (String × V)} {l : List String}
    {n : String} (h : runUpdaters d us c0 l0 = .ok (c, l))
    (hn : (alookup c0 n).isSome) : alookup c n = alookup c0 n := by
  induction us generalizing c0 l0 with
  | nil =>
    unfold runUpdaters at h
    have h2 := Except.ok.inj h
    injection h2 with hc hl
    subst hc
    exact rfl
  | cons e rest ih =>
    obtain ⟨k, f⟩ := e
    unfold runUpdaters at h
    by_cases hc : (alookup c0 k).isSome
    · rw [if_pos hc] at h
      exact ih h hn
    · rw [if_neg hc] at h
      cases hf : f d with
      | none => rw [hf] at h; exact absurd h (by simp)
      | some v =>
        rw [hf] at h
        have hkn : k ≠ n := by
          intro c
          rw [c] at hc
          exact hc hn
        have := ih h (by rw [alookup_append_single_ne _ _ hkn]; exact hn)
        rw [this, alookup_append_single_ne _ _ hkn]

/-- Starting from an empty cache, a registered updater is invoked exactly
once and its result cached. -/
theorem runU_once {V : Type} {d : PData} {us : List (String × (PData → Option V))}
    {c0 : List (String × V)} {l0 : List String} {c : List (String × V)} {l : List String}
    {n : String} {f : PData → Option V}
    (hnd : (us.map Prod.fst).Nodup) (hn : alookup us n = some f)
    (hc0 : alookup c0 n = none)
    (h : runUpdaters d us c0 l0 = .ok (c, l)) :
    l.count n = l0.count n + 1 ∧ (alookup c n).isSome := by
  induction us generalizing c0 l0 with
  | nil => simp [alookup] at hn
  | cons e rest ih =>
    obtain ⟨k, f2⟩ := e
    rw [List.map_cons, List.nodup_cons] at hnd
    unfold runUpdaters at h
    by_cases hkn : k = n
    · subst hkn
      have hcache : ¬(alookup c0 k).isSome := by
        rw [hc0]
        simp
      rw [if_neg hcache] at h
      cases hf : f2 d with
      | none => rw [hf] at h; exact absurd h (by simp)
      | some v =>
        rw [hf] at h
        obtain ⟨h1, h2⟩ := runU_frame hnd.1 h
        refine ⟨?_, ?_⟩
        · rw [h1, List.count_append]
          simp
        · rw [h2, alookup_append_single_self _ hc0]
          simp
    · have hrest : alookup rest n = some f := by
        unfold alookup at hn
        simpa [hkn] using hn
      by_cases hc : (alookup c0 k).isSome
      · rw [if_pos hc] at h
        exact ih hnd.2 hrest hc0 h
      · rw [if_neg hc] at h
        cases hf : f2 d with
        | none => rw [hf] at h; exact absurd h (by simp)
        | some v =>
          rw [hf] at h
          have hc0' : alookup (c0 ++ [(k, v)]) n = none := by
            rw [alookup_append_single_ne _ _ hkn]
            exact hc0
          obtain ⟨h1, h2⟩ := ih hnd.2 hrest hc0' h
          refine ⟨?_, h2⟩
          have hz : List.count n [k] = 0 := by
            rw [List.count_eq_zero]
            intro hm
            rw [List.mem_singleton] at hm
            exact hkn hm.symm
          rw [h1, List.count_append, hz]

/-- After the updater loop every registered name has a cache entry. -/
theorem runU_covers {V : Type} {d : PData} {us : List (String × (PData → Option V))}
    {c0 : List (String × V)} {l0 : List String} {c : List (String × V)} {l : List String}
    (h : runUpdaters d us c0 l0 = .ok (c, l)) :
    ∀ n ∈ us.map Prod.fst, (alookup c n).isSome := by
  induction us generalizing c0 l0 with
  | nil => simp
  | cons e rest ih =>
    obtain ⟨k, f⟩ := e
    intro n hn
    rw [List.map_cons, List.mem_cons] at hn
    unfold runUpdaters at h
    by_cases hc : (alookup c0 k).isSome
    · rcases hn with hn | hn
      · rw [if_pos hc] at h
        subst hn
        rw [runU_mono h hc]
        exact hc
      · rw [if_pos hc] at h
        exact ih h n hn
    · rw [if_neg hc] at h
      cases hf : f d with
      | none => rw [hf] at h; exact absurd h (by simp)
      | some v =>
        rw [hf] at h
        rcases hn with hn | hn
        · subst hn
          have hc0n : alookup c0 n = none := by
            cases hl : alookup c0 n with
            | none => rfl
            | some w => rw [hl] at hc; simp at hc
          have hsome : (alookup (c0 ++ [(n, v)]) n).isSome := by
            rw [alookup_append_single_self _ hc0n]
            simp
          rw [runU_mono h hsome]
          exact hsome
        · exact ih h n hn

/-- Reading below the old length of an extended store gives the old cell. -/
theorem getD_append_left (l1 l2 : List (Finset Node)) {i : Nat} (h : i < l1.length) :
    (l1 ++ l2).getD i ∅ = l1.getD i ∅ := by
  rw [List.getD_eq_getElem?_getD, List.getD_eq_getElem?_getD, List.getElem?_append_left h]

/-- The heap-level flow application only appends to the store: every
pre-existing frozenset object is left untouched. -/
theorem happly_extends {st : Store} {ps : List (PartId × Nat)}
    {F : List (PartId × FlowRec)} {st2 : Store} {ps2 : List (PartId × Nat)}
    (h : happly st ps F = .ok (st2, ps2)) : ∃ ext, st2 = st ++ ext := by
  induction F generalizing st ps with
  | nil =>
    unfold happly at h
    have h2 := Except.ok.inj h
    injection h2 with hst hps
    exact ⟨[], by rw [← hst]; simp⟩
  | cons e rest ih =>
    obtain ⟨p, fl⟩ := e
    unfold happly at h
    cases hl : alookup ps p with
    | none => rw [hl] at h; exact absurd h (by simp)
    | some r =>
      rw [hl] at h
      dsimp only at h
      obtain ⟨ext, hext⟩ := ih h
      refine ⟨(((st.getD r ∅) \ fl.out) ∪ fl.inn) :: ext, ?_⟩
      rw [hext]
      simp

/-- A successful heap-level merge only appends to the store. -/
theorem hmerge_extends {st : Store} {parent : HAssignment} {D : List (Node × PartId)}
    {st2 : Store} {child : HAssignment}
    (h : hmerge st parent D = .ok (st2, child)) : ∃ ext, st2 = st ++ ext := by
  unfold hmerge HAssignment.update at h
  cases hf : flows_from_changes ⟨derefParts st parent.copy.partsH⟩ D with
  | error e => rw [hf] at h; exact absurd h (by simp)
  | ok F =>
    rw [hf] at h
    dsimp only at h
    cases ha : happly st parent.copy.partsH F with
    | error e => rw [ha] at h; exact absurd h (by simp)
    | ok r =>
      obtain ⟨st3, ps3⟩ := r
      rw [ha] at h
      dsimp only at h
      have h2 := Except.ok.inj h
      injection h2 with h3 h4
      subst h3
      exact happly_extends ha

/-- The invariant of claim C2 at the assignment level: well-formed parts
whose sets cover exactly the node universe. -/
def AInv (a : Assignment) (U : Finset Node) : Prop :=
  WFparts a.parts ∧ (∀ n, n ∈ U ↔ ∃ p, memP a.parts p n) ∧
    (∀ p s, alookup a.parts p = some s → ∀ n ∈ s, n ∈ U)

/-- Root construction from a total mapping establishes the invariant. -/
theorem AInv_from_dict {m : List (Node × PartId)} {U : Finset Node}
    (hm : (m.map Prod.fst).Nodup) (hU : ∀ n, n ∈ U ↔ n ∈ m.map Prod.fst) :
    AInv (Assignment.from_dict m) U := by
  refine ⟨from_dict_wf hm, ?_, ?_⟩
  · intro n
    rw [hU]
    constructor
    · intro h
      rw [List.mem_map] at h
      obtain ⟨e, he, hen⟩ := h
      refine ⟨e.2, ?_⟩
      rw [show (Assignment.from_dict m).parts = level_sets m from rfl, memP_level_sets]
      rw [← hen]
      exact he
    · rintro ⟨p, hp⟩
      rw [show (Assignment.from_dict m).parts = level_sets m from rfl, memP_level_sets] at hp
      have := List.mem_map_of_mem Prod.fst hp
      simpa using this
  · intro p s hs n hn
    have hmem : memP (Assignment.from_dict m).parts p n := ⟨s, hs, hn⟩
    rw [show (Assignment.from_dict m).parts = level_sets m from rfl, memP_level_sets] at hmem
    rw [hU]
    have := List.mem_map_of_mem Prod.fst hmem
    simpa using this

/-- A successful update with a dict-shaped delta preserves the invariant. -/
theorem AInv_update {a : Assignment} {U : Finset Node} {D : List (Node × PartId)}
    {a2 : Assignment} (hinv : AInv a U) (hD : (D.map Prod.fst).Nodup)
    (hok : a.update D = .ok a2) : AInv a2 U := by
  obtain ⟨wf, hcov, hsub⟩ := hinv
  obtain ⟨hkeys, hchar⟩ := update_ok_memP wf hD hok
  have hall : ∀ e ∈ D, (a.getitem e.1).isSome := by
    obtain ⟨ps2, hf, _, _⟩ := update_ok_elim hok
    exact flows_ok_all_some hf
  have hfinU : ∀ n p, finalLU a D n = some p → n ∈ U := by
    intro n p hfin
    unfold finalLU at hfin
    cases hDn : alookup D n with
    | some q =>
      have hnk : n ∈ D.map Prod.fst := by
        rw [← alookup_isSome_iff]
        simp [hDn]
      rw [List.mem_map] at hnk
      obtain ⟨e, he, hen⟩ := hnk
      have := hall e he
      rw [hen] at this
      obtain ⟨o, ho⟩ := Option.isSome_iff_exists.1 this
      obtain ⟨s, hs, hns⟩ := memP_of_getitem_some wf.1 ho
      exact hsub o s hs n hns
    | none =>
      rw [hDn] at hfin
      obtain ⟨s, hs, hns⟩ := memP_of_getitem_some wf.1 hfin
      exact hsub p s hs n hns
  refine ⟨update_wf wf hD hok, ?_, ?_⟩
  · intro n
    constructor
    · intro hnU
      obtain ⟨p, hp⟩ := (hcov n).1 hnU
      have hg : a.getitem n = some p := getitem_some_of_memP wf hp
      cases hDn : alookup D n with
      | some q =>
        exact ⟨q, (hchar n q).2 (by unfold finalLU; rw [hDn])⟩
      | none => exact ⟨p, (hchar n p).2 (by unfold finalLU; rw [hDn]; exact hg)⟩
    · rintro ⟨p, hp⟩
      rw [hchar] at hp
      exact hfinU n p hp
  · intro p s hs n hn
    have : memP a2.parts p n := ⟨s, hs, hn⟩
    rw [hchar] at this
    exact hfinU n p this

/-- In a well-formed parts dict, a node in some part's set is counted in
exactly one entry. -/
theorem countP_eq_one_of_memP {l : List (PartId × Finset Node)} {n : Node}
    (wf : WFparts l) (hex : ∃ p, memP l p n) :
    l.countP (fun e => decide (n ∈ e.2)) = 1 := by
  induction l with
  | nil =>
    obtain ⟨p, s, hs, _⟩ := hex
    simp [alookup] at hs
  | cons e t ih =>
    obtain ⟨hnd, hdisj⟩ := wf
    rw [List.map_cons, List.nodup_cons] at hnd
    rw [List.pairwise_cons] at hdisj
    rw [List.countP_cons]
    by_cases hn : n ∈ e.2
    · have ht0 : t.countP (fun e => decide (n ∈ e.2)) = 0 := by
        rw [List.countP_eq_zero]
        intro f hf
        simp only [decide_eq_true_eq]
        intro hnf
        have : n ∈ e.2 ∩ f.2 := Finset.mem_inter.2 ⟨hn, hnf⟩
        rw [hdisj.1 f hf] at this
        exact absurd this (Finset.not_mem_empty n)
      rw [ht0]
      simp [hn]
    · have hex2 : ∃ p, memP t p n := by
        obtain ⟨p, s, hs, hns⟩ := hex
        by_cases hep : e.1 = p
        · exfalso
          unfold alookup at hs
          rw [if_pos hep] at hs
          rw [← Option.some.inj hs] at hns
          exact hn hns
        · refine ⟨p, s, ?_, hns⟩
          unfold alookup at hs
          rw [if_neg hep] at hs
          exact hs
      rw [ih ⟨hnd.2, hdisj.2⟩ hex2]
      simp [hn]

/-- A chain of successful merges with dict-shaped deltas preserves the
invariant of the assignment. -/
theorem AInv_mergeChain {V : Type} {P0 P2 : Partition V}
    {ds : List (List (Node × PartId))} {U : Finset Node}
    (hds : ∀ d ∈ ds, (d.map Prod.fst).Nodup)
    (hok : mergeChain P0 ds = .ok P2)
    (hinv : AInv P0.data.assignment U) : AInv P2.data.assignment U := by
  induction ds generalizing P0 with
  | nil =>
    unfold mergeChain at hok
    rw [← Except.ok.inj hok]
    exact hinv
  | cons d ds2 ih =>
    unfold mergeChain at hok
    cases hm : P0.merge d with
    | error e => rw [hm] at hok; exact absurd hok (by simp)
    | ok Q =>
      rw [hm] at hok
      obtain ⟨a2, cache, lg, hu, _, _, hQ⟩ := merge_ok_elim hm
      have hQa : Q.data.assignment = a2 := by rw [hQ]
      have hinv2 : AInv Q.data.assignment U := by
        rw [hQa]
        exact AInv_update hinv (hds d (List.mem_cons_self _ _)) hu
      exact ih (fun d2 hd2 => hds d2 (List.mem_cons_of_mem _ hd2)) hok hinv2

/-- A default partition value used to extract computed partitions. -/
def emptyP : Partition SV :=
  ⟨⟨∅, [], ⟨[]⟩, .labels [], none, none, none⟩, [], [], []⟩

/-- The scenario root partition as a value. -/
def scRootP : Partition SV := scRootE.toOption.getD emptyP

/-- The scenario child partition as a value. -/
def scChildP : Partition SV := scChildE.toOption.getD emptyP

/-- The scenario root with the literal `size` updater, as a value. -/
def scRootSizeP : Partition SV := scRootSizeE.toOption.getD emptyP

theorem scRootE_eq : scRootE = .ok scRootP := by rfl

theorem scChildE_eq : scRootP.merge [(2, 1)] = .ok scChildP := by rfl

theorem scRootSizeE_eq : scRootSizeE = .ok scRootSizeP := by rfl

/-- C1: for every Partition P (with well-formed parts, as every constructed
partition has) and every delta dict D, the Assignment held by `P.merge(D)`
maps every node to the same part as the Assignment built from scratch via
`Assignment.from_dict` from the full node-to-part mapping obtained by
overriding P's items with D: the incremental update path and the
from-scratch rebuild agree on every node's part. -/
theorem claim_C1_incremental_rebuild_agree {V : Type} (P : Partition V)
    (D : List (Node × PartId)) (P2 : Partition V)
    (hwf : WFparts P.data.assignment.parts)
    (hD : (D.map Prod.fst).Nodup)
    (hok : P.merge D = .ok P2) :
    ∀ n : Node, P2.data.assignment.getitem n =
      (Assignment.from_dict (overrideD P.data.assignment.items D)).getitem n := by
  obtain ⟨a2, cache, lg, hu, _, _, hP2⟩ := merge_ok_elim hok
  intro n
  have h := update_vs_from_scratch hwf hD hu n
  rw [hP2]
  exact h

/-- Witness for C1 at the scenario input: the root's parts are well formed,
and the merged child agrees with the from-scratch rebuild on every node. -/
theorem claim_C1_witness :
    WFparts scRootP.data.assignment.parts ∧
      (∀ n : Node, scChildP.data.assignment.getitem n =
        (Assignment.from_dict
          (overrideD scRootP.data.assignment.items [(2, 1)])).getitem n) :=
  ⟨by decide,
    claim_C1_incremental_rebuild_agree scRootP [(2, 1)] scChildP
      (by decide) (by decide) scChildE_eq⟩

/-- C2: for every Partition reachable by root construction from a total
node-to-part dict followed by any sequence of successful merge steps with
dict-shaped deltas, the Assignment's part sets partition the graph's node
set: every node of the graph lies in exactly one part entry's set. The
success of each merge step encodes the claim's side conditions that deltas
mention only nodes of the graph and existing part labels. -/
theorem claim_C2_partition_invariant {V : Type} (g : Graph) (m : List (Node × PartId))
    (us : List (String × (PData → Option V))) (P0 P2 : Partition V)
    (ds : List (List (Node × PartId)))
    (hm : (m.map Prod.fst).Nodup)
    (hU : g.nodes = (m.map Prod.fst).toFinset)
    (hds : ∀ d ∈ ds, (d.map Prod.fst).Nodup)
    (h0 : mkRoot g (.dict m) us = .ok P0)
    (hok : mergeChain P0 ds = .ok P2) :
    ∀ n ∈ g.nodes, P2.data.assignment.parts.countP (fun e => decide (n ∈ e.2)) = 1 := by
  obtain ⟨a, cache, lg, ha, _, hP0⟩ := mkRoot_ok_elim h0
  have ha2 : a = Assignment.from_dict m := by
    unfold get_assignment at ha
    exact (Except.ok.inj ha).symm
  have hUm : ∀ n, n ∈ g.nodes ↔ n ∈ m.map Prod.fst := by
    intro n
    rw [hU, List.mem_toFinset]
  have hinv0 : AInv P0.data.assignment g.nodes := by
    rw [hP0]
    show AInv a g.nodes
    rw [ha2]
    exact AInv_from_dict hm hUm
  have hinv2 := AInv_mergeChain hds hok hinv0
  intro n hn
  exact countP_eq_one_of_memP hinv2.1 ((hinv2.2.1 n).1 hn)

/-- Witness for C2 at the scenario input: after the scenario merge, every
node of the graph is in exactly one part's set. -/
theorem claim_C2_witness :
    ((scMap.map Prod.fst).Nodup) ∧
      (∀ n ∈ scGraph.nodes,
        scChildP.data.assignment.parts.countP (fun e => decide (n ∈ e.2)) = 1) :=
  ⟨by decide,
    claim_C2_partition_invariant scGraph scMap [] scRootP scChildP [[(2, 1)]]
      (by decide) (by decide) (by decide) scRootE_eq
      (by rw [mergeChain, scChildE_eq]; rfl)⟩

/-- C3: in the scenario with nodes 1..4, path edges, and initial assignment
1,2 to part A (0) and 3,4 to part B (1): on the root, `crosses_parts`
holds of edge (2,3) and fails of (1,2) and (3,4); after merging the delta
sending node 2 to B, the child's assignment has part A = 1 and
part B = 2,3,4, `crosses_parts` holds of (1,2) and fails of (2,3). -/
theorem claim_C3_scenario :
    scRootE.map (fun P =>
        (P.crosses_parts (1, 2), P.crosses_parts (2, 3), P.crosses_parts (3, 4)))
      = .ok (some false, some true, some false) ∧
    scChildE.map (fun P =>
        (alookup P.data.assignment.parts 0, alookup P.data.assignment.parts 1,
          P.crosses_parts (1, 2), P.crosses_parts (2, 3)))
      = .ok (some {1}, some {2, 3, 4}, some true, some false) := by
  refine ⟨by decide, by decide⟩

/-- Every constructed partition got its cache and log from one run of the
updater loop over its registry, starting from an empty cache. -/
theorem constructed_runU {V : Type} {P : Partition V} (hC : Constructed P) :
    ∃ d, runUpdaters d P.updaters [] [] = .ok (P.cache, P.log) := by
  rcases hC with ⟨g, arg, us, h⟩ | ⟨Q, flips, h⟩
  · obtain ⟨a, cache, lg, _, hr, hP⟩ := mkRoot_ok_elim h
    refine ⟨⟨g.nodes, g.edges, a, .dict (level_sets a.items), none, none, none⟩, ?_⟩
    rw [hP]
    exact hr
  · obtain ⟨a2, cache, lg, _, _, hr, hP⟩ := merge_ok_elim h
    refine ⟨{ Q.data with
        assignment := a2, flips := some flips,
        flows := some ((touchedParts Q.data.assignment flips).map
          (fun p => (p, flowAt Q.data.assignment flips p))),
        edge_flows := some (compute_edge_flows Q.data.assignment a2 flips
          Q.data.graphEdges) }, ?_⟩
    rw [hP]
    exact hr

/-- C4: for every constructed Partition and every registered updater name,
the updater function was invoked exactly once during construction (the log
records each invocation), and every later lookup `P[n]` returns the cached
result stored at construction with no re-invocation (the Boolean returned by
`getItem` records whether the updater was invoked by the lookup). -/
theorem claim_C4_cache_once {V : Type} (P : Partition V) (n : String)
    (f : PData → Option V) (hC : Constructed P)
    (hnd : (P.updaters.map Prod.fst).Nodup)
    (hn : alookup P.updaters n = some f) :
    P.log.count n = 1 ∧
      ∃ v, alookup P.cache n = some v ∧ P.getItem n = .ok (v, false) := by
  obtain ⟨d, hr⟩ := constructed_runU hC
  obtain ⟨h1, h2⟩ := runU_once hnd hn (by rfl) hr
  refine ⟨by simpa using h1, ?_⟩
  obtain ⟨v, hv⟩ := Option.isSome_iff_exists.1 h2
  refine ⟨v, hv, ?_⟩
  unfold Partition.getItem
  rw [hv]

/-- Witness for C4 at the scenario root with the `size` updater: the updater
ran once at construction and lookups return the cached value without
re-invoking. -/
theorem claim_C4_witness :
    ((scRootSizeP.updaters.map Prod.fst).Nodup) ∧
      (scRootSizeP.log.count "size" = 1 ∧
        ∃ v, alookup scRootSizeP.cache "size" = some v ∧
          scRootSizeP.getItem "size" = .ok (v, false)) :=
  ⟨by decide,
    claim_C4_cache_once scRootSizeP "size" sizeUpd
      (Or.inl ⟨scGraph, .dict scMap, [("size", sizeUpd)], scRootSizeE_eq⟩)
      (by decide) (by rfl)⟩

/-- C5: for every constructed Partition, root or child, the updater cache is
fully populated before the constructor returns: every registered updater name
has a cache entry (eager materialization, not deferred to first lookup). -/
theorem claim_C5_cache_eager {V : Type} (P : Partition V) (hC : Constructed P) :
    ∀ n ∈ P.updaters.map Prod.fst, (alookup P.cache n).isSome := by
  obtain ⟨d, hr⟩ := constructed_runU hC
  exact runU_covers hr

/-- Witness for C5 at the scenario root with the `size` updater. -/
theorem claim_C5_witness :
    Constructed scRootSizeP ∧
      ∀ n ∈ scRootSizeP.updaters.map Prod.fst,
        (alookup scRootSizeP.cache n).isSome :=
  have hC : Constructed scRootSizeP :=
    Or.inl ⟨scGraph, .dict scMap, [("size", sizeUpd)], scRootSizeE_eq⟩
  ⟨hC, claim_C5_cache_eager scRootSizeP hC⟩

/-- Counterexample to C6: the spec's `size` updater literally reads the
partition's `parts` attribute, but on the child produced by the scenario
merge that attribute is the inherited tuple of part labels, not a
part-to-nodes dict, so the comprehension over it raises and the whole merge
construction fails with the updater's error instead of yielding sizes
A = 1, B = 3. -/
theorem claim_C6_counterexample :
    scChildSizeE.map (fun P => P.cache) = .error (.updaterError "size") := by
  decide

/-- C6 as amended: with the `size` updater reading the per-part node sets
from the partition's assignment (`p.assignment.parts`), the scenario merge
succeeds and yields sizes A = 1 and B = 3, computed once at construction,
cached, and returned from the cache on lookup without re-invocation. -/
theorem claim_C6_size_updater_amended :
    scChildSize2E.map (fun P => (P.cache, P.log))
      = .ok ([("size", [(0, 1), (1, 3)])], ["size"]) ∧
    scChildSize2E.map (fun P => P.getItem "size")
      = .ok (.ok ([(0, 1), (1, 3)], false)) := by
  refine ⟨by decide, by decide⟩

/-- Counterexample to C7: a flow in which node 1 is both in the "in" and the
"out" set of part 0 is applied without any error: the loop of
`Assignment.update` computes `(old - out) ∪ in` and succeeds (the source has
no InconsistentFlow check), so applying the flow does not fail. -/
theorem claim_C7_counterexample :
    applyFlows [(0, ({1, 2} : Finset Node))] [(0, ⟨{1}, {1}⟩)]
      = .ok [(0, {1, 2})] := by
  decide

/-- C7 as amended: applying a flow in which a node appears in both the "in"
and the "out" set of the same (present) part does not fail; the update
silently resolves the contradiction with the "in" side winning, because the
union with the "in" set is applied after the difference with the "out" set:
the node is a member of that part's new set. -/
theorem claim_C7_silent_resolution (ps : List (PartId × Finset Node))
    (F : List (PartId × FlowRec)) (p : PartId) (fl : FlowRec) (n : Node)
    (ps2 : List (PartId × Finset Node))
    (hF : (F.map Prod.fst).Nodup) (hmem : alookup F p = some fl)
    (hin : n ∈ fl.inn) (_hout : n ∈ fl.out)
    (hok : applyFlows ps F = .ok ps2) :
    ∃ s, alookup ps2 p = some s ∧ n ∈ s := by
  have hlk := applyFlows_ok_lookup hF hok p
  rw [hmem] at hlk
  have hsome : (alookup ps p).isSome :=
    applyFlows_ok_all_some hok (p, fl) (mem_of_alookup_eq_some hmem)
  obtain ⟨s0, hs0⟩ := Option.isSome_iff_exists.1 hsome
  rw [hs0] at hlk
  simp only [Option.map_some] at hlk
  exact ⟨(s0 \ fl.out) ∪ fl.inn, hlk, Finset.mem_union_right _ hin⟩

/-- Witness for the amended C7 at a concrete inconsistent flow: node 1 ends
up inside part 0's new set. -/
theorem claim_C7_witness :
    (1 ∈ (FlowRec.mk {1} {1}).inn ∧ 1 ∈ (FlowRec.mk {1} {1}).out) ∧
      ∃ s, alookup [(0, ({1, 2} : Finset Node))] 0 = some s ∧ 1 ∈ s :=
  ⟨⟨by decide, by decide⟩,
    claim_C7_silent_resolution [(0, {1, 2})] [(0, ⟨{1}, {1}⟩)] 0 ⟨{1}, {1}⟩ 1
      [(0, {1, 2})] (by decide) (by decide) (by decide) (by decide) (by decide)⟩

/-- C8: constructing a child by merge leaves the parent untouched. At the
heap level (store of frozenset objects): a successful child construction
(copy of the parent's assignment followed by the flip update) only appends
fresh frozensets to the store, every frozenset object referenced by the
parent's parts dict is the same unmutated object afterwards, and the
parent's assignment maps every node to the same part as before. -/
theorem claim_C8_parent_unchanged (st : Store) (parent : HAssignment)
    (D : List (Node × PartId)) (st2 : Store) (child : HAssignment)
    (hvalid : ∀ e ∈ parent.partsH, e.2 < st.length)
    (hok : hmerge st parent D = .ok (st2, child)) :
    (∃ ext, st2 = st ++ ext) ∧
      (∀ e ∈ parent.partsH, st2.getD e.2 ∅ = st.getD e.2 ∅) ∧
      (∀ n, hgetitem st2 parent n = hgetitem st parent n) := by
  obtain ⟨ext, hext⟩ := hmerge_extends hok
  have hcell : ∀ e ∈ parent.partsH, st2.getD e.2 ∅ = st.getD e.2 ∅ := by
    intro e he
    rw [hext]
    exact getD_append_left st ext (hvalid e he)
  refine ⟨⟨ext, hext⟩, hcell, ?_⟩
  intro n
  unfold hgetitem
  have hderef : derefParts st2 parent.partsH = derefParts st parent.partsH := by
    unfold derefParts
    refine List.map_congr_left ?_
    intro e he
    rw [hcell e he]
  rw [hderef]

/-- Witness for C8 at a concrete store and parent: the merge appends the new
sets, keeps every parent cell, and leaves the parent's lookups unchanged. -/
theorem claim_C8_witness :
    (∀ e ∈ (HAssignment.mk [(0, 0), (1, 1)]).partsH,
        e.2 < ([{1, 2}, {3, 4}] : Store).length) ∧
      ((∃ ext, ([{1, 2}, {3, 4}, {1}, {2, 3, 4}] : Store) = [{1, 2}, {3, 4}] ++ ext) ∧
        (∀ e ∈ (HAssignment.mk [(0, 0), (1, 1)]).partsH,
          ([{1, 2}, {3, 4}, {1}, {2, 3, 4}] : Store).getD e.2 ∅ =
            ([{1, 2}, {3, 4}] : Store).getD e.2 ∅) ∧
        (∀ n, hgetitem [{1, 2}, {3, 4}, {1}, {2, 3, 4}] ⟨[(0, 0), (1, 1)]⟩ n =
          hgetitem [{1, 2}, {3, 4}] ⟨[(0, 0), (1, 1)]⟩ n)) :=
  ⟨by decide,
    claim_C8_parent_unchanged [{1, 2}, {3, 4}] ⟨[(0, 0), (1, 1)]⟩ [(2, 1)]
      [{1, 2}, {3, 4}, {1}, {2, 3, 4}] ⟨[(0, 2), (1, 3)]⟩ (by decide) (by decide)⟩

/-- C9: root construction whose assignment argument is neither a string
naming a node attribute, nor a dict, nor an Assignment object (including
passing None, covered by the `invalid` argument shape) fails with the
`TypeError` raised by `get_assignment` before any updater runs; since the
result is the error and not a partition, no partially built Partition is
observable by the caller. -/
theorem claim_C9_bad_assignment_type {V : Type} (g : Graph)
    (us : List (String × (PData → Option V))) :
    mkRoot g .invalid us = .error .typeError := by
  rfl

/-- C10: updating an assignment with flips that send some node to a part
label absent from the parts dict raises `KeyError` when the update loop
reads the old node set of that part: a delta cannot create a new part. The
hypotheses say every flip node is currently assigned (so the flow derivation
itself succeeds) and that the target label of one of them is not a key. -/
theorem claim_C10_new_part_keyerror (a : Assignment) (D : List (Node × PartId))
    (n : Node) (q : PartId)
    (hall : ∀ e ∈ D, (a.getitem e.1).isSome)
    (hn : (n, q) ∈ D) (hq : alookup a.parts q = none) :
    ∃ q2, a.update D = .error (.keyError q2) ∧ alookup a.parts q2 = none := by
  have hf := flows_ok_of_all_some hall
  have hg : (a.getitem n).isSome := by
    have := hall (n, q) hn
    exact this
  obtain ⟨o, ho⟩ := Option.isSome_iff_exists.1 hg
  have hok : o ≠ q := by
    intro c
    unfold Assignment.getitem at ho
    cases hfind : a.parts.find? (fun e => decide (n ∈ e.2)) with
    | none => rw [hfind] at ho; simp at ho
    | some e =>
      rw [hfind] at ho
      have ho2 : e.1 = o := by
        simpa using ho
      have he : e ∈ a.parts := List.mem_of_find?_eq_some hfind
      have hk : e.1 ∈ a.parts.map Prod.fst := by
        have := List.mem_map_of_mem Prod.fst he
        simpa using this
      rw [← alookup_isSome_iff] at hk
      rw [ho2, c, hq] at hk
      simp at hk
  have hch : (n, o, q) ∈ changedTriples a D := by
    rw [mem_changedTriples]
    exact ⟨hn, ho, hok⟩
  have htouch : q ∈ touchedParts a D := by
    rw [mem_touchedParts]
    exact ⟨(n, o, q), hch, .inr rfl⟩
  have hmiss : ∃ e ∈ (touchedParts a D).map (fun p => (p, flowAt a D p)),
      alookup a.parts e.1 = none := by
    refine ⟨(q, flowAt a D q), List.mem_map.2 ⟨q, htouch, rfl⟩, hq⟩
  obtain ⟨q2, hq2, hq2n⟩ := applyFlows_error_of_missing hmiss
  refine ⟨q2, ?_, hq2n⟩
  unfold Assignment.update
  rw [hf]
  dsimp only
  rw [hq2]

/-- Witness for C10: flipping node 1 of the scenario assignment to the
nonexistent part 5 raises `KeyError` at a missing part key. -/
theorem claim_C10_witness :
    alookup (Assignment.from_dict scMap).parts 5 = none ∧
      ∃ q2, (Assignment.from_dict scMap).update [(1, 5)] = .error (.keyError q2) ∧
        alookup (Assignment.from_dict scMap).parts q2 = none :=
  ⟨by decide,
    claim_C10_new_part_keyerror (Assignment.from_dict scMap) [(1, 5)] 1 5
      (by decide) (by decide) (by decide)⟩
